import Mathlib

/-!
# Import-graph walker of `go/packages/packagedep/main.go`, and `pkg.go` of gopls

A shallow embedding of `doPkg`, `convertToDot` and `handler` and of the graph
model they build (namespace `PackageDep`), and of the dependency lookups of
`gopls/internal/lsp/cache/pkg.go` (namespace `Cache`), followed by theorems
about them.

Modelling conventions
* A `*packages.Package` pointer is an index `Fin n` into a heap of `n`
  packages, so a pointer is never nil or dangling; two different indices may
  carry the same `PkgPath`.
* Go's `map[string]T` is an association list; `mapSet` is `m[k] = v`. The
  iteration order of `range pkg.Imports` is the order of the list, so
  quantifying over heaps quantifies over iteration orders. (Go may range over
  the same map in two different orders; a map is ranged once per walk of its
  package, and the model uses one order per map.)
* The package-level variable `seen` is threaded through every call as an
  explicit state: a list of pointers, where membership is `seen[p]`.
* `IsStandPkg` looks at the file system; it is a parameter `IsStandPkg` of the walk.
  The flag value `*callDeep` is the parameter `callDeep`.
* Go `int` is 64 bit two's complement: `deep+1` is `addInt deep 1`.
* `log.Printf` only writes a diagnostic and is not modelled.
* A `*dotNode` is modelled by the node it points to: `lpn` and the element of
  `nodes`, two objects built by `pkgToNode(pkg)`, are the same value.
* The file `dot.go` with the graph types, `WriteDot` and `dotToImage` is not among
  the sources: the types are modelled from the specification, the two functions
  are parameters.
* The heap holds the package objects of every request. `packages.Load` is called
  once per request; a source that is loaded again is a second set of objects
  in the heap, copies of the first (`CopyOn`).
* `packages.Load`, `http.ServeFile` and `sort.Strings` are library calls: the first
  two are parameters, the third is a sort into ascending order. The response
  writer of `net/http` is modelled by the status it has sent and the body
  written so far.
-/

namespace PackageDep

/-! ## Graph model -/

/-- Modelled from the spec: the type `dotAttrs` (file `dot.go` of the repository is
not part of the sources): an attribute mapping of key/value string pairs. -/
abbrev dotAttrs := List (String × String)

/-- Go map assignment `m[k] = v` on an association list: an existing key is
overwritten in place, a new key is added. -/
def mapSet {α : Type} : List (String × α) → String → α → List (String × α)
  | [], k, v => [(k, v)]
  | (k0, v0) :: rest, k, v =>
    if k0 = k then (k, v) :: rest else (k0, v0) :: mapSet rest k v

/-- Modelled from the spec: the type `dotNode` (declared in the missing `dot.go`): a vertex
with an identity and an attribute mapping. -/
structure dotNode where
  ID : String
  Attrs : dotAttrs
  deriving DecidableEq, Repr

/-- Modelled from the spec: the type `dotEdge` (declared in the missing `dot.go`): a directed
edge between two nodes with its own attribute mapping. -/
structure dotEdge where
  From : dotNode
  To : dotNode
  Attrs : dotAttrs
  deriving DecidableEq, Repr

/-- Modelled from the spec: the type `dotCluster` (declared in the missing `dot.go`): a named
container owning nodes, a map from child name to child cluster, and attributes. -/
inductive dotCluster where
  | mk (ID : String) (Clusters : List (String × dotCluster)) (Nodes : List dotNode)
      (Attrs : dotAttrs)

/-- Field `ID` of a cluster. -/
def dotCluster.ID : dotCluster → String
  | .mk i _ _ _ => i

/-- Field `Clusters` of a cluster. -/
def dotCluster.Clusters : dotCluster → List (String × dotCluster)
  | .mk _ cs _ _ => cs

/-- Field `Nodes` of a cluster. -/
def dotCluster.Nodes : dotCluster → List dotNode
  | .mk _ _ ns _ => ns

/-- Field `Attrs` of a cluster. -/
def dotCluster.Attrs : dotCluster → dotAttrs
  | .mk _ _ _ a => a

/-- Modelled from the spec: the constructor `NewDotCluster` (defined in the missing `dot.go`):
a new cluster with the given id that owns nothing yet: no child clusters (the map
exists, `doPkg` assigns into it), no nodes, no attributes. -/
def NewDotCluster (id : String) : dotCluster :=
  .mk id [] [] []

/-- Modelled from the spec: the type `dotGraph` (declared in the missing `dot.go`), with the
fields that `convertToDot` fills in. -/
structure dotGraph where
  Title : String
  Minlen : Nat
  Cluster : dotCluster
  Nodes : List dotNode
  Edges : List dotEdge
  Options : List (String × String)

mutual
/-- Nesting depth of a cluster tree: a cluster without children has depth 1, a
cluster stored in another cluster's `Clusters` map is one deeper than its parent. -/
def dotCluster.depth : dotCluster → Nat
  | .mk _ cs _ _ => 1 + depthOfMap cs
/-- Largest depth among the clusters of a `Clusters` map (0 for the empty map). -/
def depthOfMap : List (String × dotCluster) → Nat
  | [] => 0
  | (_, c) :: rest => max c.depth (depthOfMap rest)
end

mutual
/-- Every cluster of a cluster tree: the cluster itself and all clusters reachable
through the `Clusters` maps. -/
def dotCluster.subclusters : dotCluster → List dotCluster
  | .mk i cs ns a => .mk i cs ns a :: subclustersOfMap cs
/-- Every cluster reachable from the entries of a `Clusters` map. -/
def subclustersOfMap : List (String × dotCluster) → List dotCluster
  | [] => []
  | (_, c) :: rest => c.subclusters ++ subclustersOfMap rest
end

mutual
/-- Every node held in the node set of some cluster of the tree. -/
def dotCluster.allNodes : dotCluster → List dotNode
  | .mk _ cs ns _ => ns ++ allNodesOfMap cs
/-- Nodes of all clusters reachable from the entries of a `Clusters` map. -/
def allNodesOfMap : List (String × dotCluster) → List dotNode
  | [] => []
  | (_, c) :: rest => c.allNodes ++ allNodesOfMap rest
end

/-! ## Packages and the walk `doPkg` -/

/-- The fields of `packages.Package` the walker reads. `Imports` maps an import
path to the imported package; `Errors` is `none` for a nil slice. -/
structure Package (n : Nat) where
  PkgPath : String
  Name : String
  Imports : List (String × Fin n)
  Errors : Option (List String)
  deriving DecidableEq, Repr

/-- The loaded packages: what each pointer points to. -/
abbrev Heap (n : Nat) := Fin n → Package n

/-- Go `int` addition: 64 bit two's complement with wrap-around. -/
def addInt (a b : Int) : Int :=
  (a + b + 2 ^ 63) % 2 ^ 64 - 2 ^ 63

/-- Translation of `pkgToNode`. -/
def pkgToNode {n : Nat} (p : Package n) : dotNode :=
  { ID := p.PkgPath
    Attrs := [("fillcolor", "lightblue"), ("label", p.Name), ("penwidth", "0.5")] }

/-- Attributes `doPkg` gives the cluster of a package (lines 124-135). -/
def clusterAttrs (pkgPath : String) : dotAttrs :=
  mapSet
    [("penwidth", "0.8"), ("fontsize", "16"), ("label", pkgPath), ("style", "filled"),
     ("fillcolor", "lightyellow"), ("URL", "/?f=" ++ pkgPath), ("fontname", "Tahoma bold"),
     ("tooltip", "package: " ++ pkgPath), ("rank", "sink")]
    "bgcolor" "#e6ecfa"

/-- Attributes of every edge `doPkg` creates. -/
def edgeAttrs : dotAttrs := [("color", "saddlebrown")]

/-- Ways a run of the model stops without returning: the recursion budget of the
model is used up, or Go would panic on the index expression `n[0]`. -/
inductive Halt where
  | outOfFuel
  | indexOutOfRange
  deriving DecidableEq, Repr

/-- What one call of `doPkg` returns, together with the value of the global
`seen` after the call. -/
structure WalkResult (n : Nat) where
  cluster : dotCluster
  nodes : List dotNode
  edges : List dotEdge
  seen : List (Fin n)

/-- State of the `for name, p := range pkg.Imports` loop: the `Clusters` map of
the cluster under construction, the edge list, and the global `seen`. -/
structure LoopState (n : Nat) where
  clusters : List (String × dotCluster)
  edges : List dotEdge
  seen : List (Fin n)

/-- The loop of `doPkg` (lines 145-169) over the remaining import entries.
`self` is the recursive call `doPkg`. -/
def importLoop {n : Nat} (IsStandPkg : String → Bool) (callDeep : Int) (h : Heap n)
    (self : List (Fin n) → Fin n → Int → Except Halt (WalkResult n))
    (lpn : dotNode) (deep : Int) :
    List (String × Fin n) → LoopState n → Except Halt (LoopState n)
  | [], st => .ok st
  | (name, p) :: rest, st =>
    if IsStandPkg (h p).PkgPath then
      importLoop IsStandPkg callDeep h self lpn deep rest st
    else if p ∈ st.seen then
      importLoop IsStandPkg callDeep h self lpn deep rest st
    else if addInt deep 1 = callDeep then
      importLoop IsStandPkg callDeep h self lpn deep rest { st with seen := p :: st.seen }
    else
      match self (p :: st.seen) p (addInt deep 1) with
      | .error e => .error e
      | .ok r =>
        match r.nodes with
        | [] => .error .indexOutOfRange
        | n0 :: _ =>
          importLoop IsStandPkg callDeep h self lpn deep rest
            { clusters := mapSet st.clusters name r.cluster
              edges := st.edges ++ [{ From := lpn, To := n0, Attrs := edgeAttrs }] ++ r.edges
              seen := r.seen }

/-- Translation of `doPkg` with a recursion budget: `fuel` bounds the nesting of
recursive calls. `IsStandPkg` is the classifier `IsStandPkg`, `callDeep` the value of
the `deep` flag, `seen` the global seen set when the call starts. -/
def doPkgFuel {n : Nat} (IsStandPkg : String → Bool) (callDeep : Int) (h : Heap n) :
    Nat → List (Fin n) → Fin n → Int → Except Halt (WalkResult n)
  | 0, _, _, _ => .error .outOfFuel
  | fuel + 1, seen, pkg, deep =>
    let lpn := pkgToNode (h pkg)
    match importLoop IsStandPkg callDeep h (doPkgFuel IsStandPkg callDeep h fuel) lpn deep
        (h pkg).Imports
        { clusters := (NewDotCluster (h pkg).PkgPath).Clusters, edges := [], seen := seen } with
    | .error e => .error e
    | .ok st =>
      .ok { cluster :=
              .mk (h pkg).PkgPath st.clusters (if deep > 0 then [lpn] else [])
                (clusterAttrs (h pkg).PkgPath)
            nodes := [pkgToNode (h pkg)]
            edges := st.edges
            seen := st.seen }

/-- The walk `doPkg(pkg, deep)`: every recursive call marks a new package seen, so
a budget of one more than the number of packages is never used up (see the
section on termination). -/
def doPkg {n : Nat} (IsStandPkg : String → Bool) (callDeep : Int) (h : Heap n)
    (seen : List (Fin n)) (pkg : Fin n) (deep : Int) : Except Halt (WalkResult n) :=
  doPkgFuel IsStandPkg callDeep h (n + 1) seen pkg deep

/-! ## `convertToDot` -/

/-- The `Options` map `convertToDot` gives the graph (lines 103-109). -/
def graphOptions : List (String × String) :=
  [("minlen", "2"), ("nodesep", "0.35"), ("nodeshape", "box"),
   ("nodestyle", "filled,rounded"), ("rankdir", "LR")]

/-- The `dotGraph` that `convertToDot` assembles from what `doPkg` returned
(lines 97-110). `minlen` is the package-level value of that name, declared
outside the sources at hand. -/
def graphOf {n : Nat} (minlen : Nat) (title : String) (r : WalkResult n) : dotGraph :=
  { Title := title
    Minlen := minlen
    Cluster := r.cluster
    Nodes := r.nodes
    Edges := r.edges
    Options := graphOptions }

/-- Translation of `convertToDot` with the recursion budget of the walk explicit.
It returns the Go result pair as `Except String β` together with the global `seen`
left behind. `writeDot` is the method `WriteDot` of the missing `dot.go`,
`fmtErrors` the `%v` rendering of `pkg.Errors`. -/
def convertToDotFuel {n : Nat} {β : Type} (writeDot : dotGraph → Except String β)
    (minlen : Nat) (fmtErrors : List String → String)
    (IsStandPkg : String → Bool) (callDeep : Int) (h : Heap n) (fuel : Nat)
    (seen : List (Fin n)) (lpkgs : List (Fin n)) :
    Except Halt (Except String β × List (Fin n)) :=
  match lpkgs with
  | [] => .ok (.error "no package found. ", seen)
  | pkg :: _ =>
    match (h pkg).Errors with
    | some errs => .ok (.error ("get failed " ++ fmtErrors errs ++ ". "), seen)
    | none =>
      match doPkgFuel IsStandPkg callDeep h fuel seen pkg 0 with
      | .error e => .error e
      | .ok r => .ok (writeDot (graphOf minlen (h pkg).PkgPath r), r.seen)

/-- Translation of `convertToDot`. -/
def convertToDot {n : Nat} {β : Type} (writeDot : dotGraph → Except String β)
    (minlen : Nat) (fmtErrors : List String → String)
    (IsStandPkg : String → Bool) (callDeep : Int) (h : Heap n)
    (seen : List (Fin n)) (lpkgs : List (Fin n)) :
    Except Halt (Except String β × List (Fin n)) :=
  convertToDotFuel writeDot minlen fmtErrors IsStandPkg callDeep h (n + 1) seen lpkgs

/-- The graph `convertToDot` hands to `WriteDot`: `convertToDot` with a serializer
that returns its argument. -/
def convertToDotGraph {n : Nat} (minlen : Nat) (fmtErrors : List String → String)
    (IsStandPkg : String → Bool) (callDeep : Int) (h : Heap n)
    (seen : List (Fin n)) (lpkgs : List (Fin n)) :
    Except Halt (Except String dotGraph × List (Fin n)) :=
  convertToDot (fun g => .ok g) minlen fmtErrors IsStandPkg callDeep h seen lpkgs

/-! ## `handler` -/

/-- The state of an `http.ResponseWriter` as far as `handler` uses it: the status
code sent (`none` while no header has been written) and the body written so
far. -/
structure ResponseWriter where
  status : Option Nat
  body : String
  deriving DecidableEq, Repr

/-- The library method `ResponseWriter.Write`: the first write sends status 200 when
no header was written before; the bytes are added to the body. -/
def ResponseWriter.Write (w : ResponseWriter) (b : String) : ResponseWriter :=
  { status := some (w.status.getD 200), body := w.body ++ b }

/-- The library method `ResponseWriter.WriteHeader`: sends the status code; a call
after the header has been sent changes nothing. -/
def ResponseWriter.WriteHeader (w : ResponseWriter) (code : Nat) : ResponseWriter :=
  match w.status with
  | none => { w with status := some code }
  | some _ => w

/-- The library function `http.Error`: writes the header with the code, then the
message and a line end. -/
def httpError (w : ResponseWriter) (error : String) (code : Nat) : ResponseWriter :=
  (w.WriteHeader code).Write (error ++ "\n")

/-- A response writer on which nothing has been written. -/
def freshWriter : ResponseWriter := { status := none, body := "" }

/-- Translation of `handler`. `load` is `packages.Load(cfg, dir)` (an error is its
message), `dotToImage` the function of that name from the missing `dot.go`
applied to the description, `serveFile` is `http.ServeFile`; `anaDir` is the flag
value, `f` is `r.FormValue("f")`. It returns the response writer and the global
`seen` it leaves behind. -/
def handler {n : Nat} {β : Type} (load : String → Except String (List (Fin n)))
    (writeDot : dotGraph → Except String β) (minlen : Nat)
    (fmtErrors : List String → String) (IsStandPkg : String → Bool) (callDeep : Int)
    (h : Heap n) (dotToImage : β → Except String String)
    (serveFile : ResponseWriter → String → ResponseWriter)
    (anaDir : String) (f : String) (seen : List (Fin n)) (w : ResponseWriter) :
    Except Halt (ResponseWriter × List (Fin n)) :=
  let dir := if f ≠ "" then f else anaDir
  match load dir with
  | .error err =>
    .ok (((w.Write ("load package of " ++ anaDir ++ " failed " ++ err ++ ". ")).WriteHeader 500),
      seen)
  | .ok lpkgs =>
    match convertToDot writeDot minlen fmtErrors IsStandPkg callDeep h seen lpkgs with
    | .error e => .error e
    | .ok (.error err, seen') => .ok (httpError w err 500, seen')
    | .ok (.ok res, seen') =>
      match dotToImage res with
      | .error err => .ok (httpError w err 500, seen')
      | .ok img => .ok (serveFile w img, seen')

/-! ## Measures, predicates and loop invariants used below -/

/-- Number of packages of the heap that are not in the seen set. -/
def unseen {n : Nat} (seen : List (Fin n)) : Nat :=
  (Finset.univ.filter (fun p : Fin n => p ∉ seen)).card

/-- A recursive call restricted to the arguments the loop is expected to use: the
package passed was absent from the seen set and has just been added to it. On
any other argument the restricted call stops. -/
def onlyFresh {n : Nat} (self : List (Fin n) → Fin n → Int → Except Halt (WalkResult n)) :
    List (Fin n) → Fin n → Int → Except Halt (WalkResult n)
  | [], _, _ => .error .outOfFuel
  | q :: s0, p, d => if q = p ∧ p ∉ s0 then self (q :: s0) p d else .error .outOfFuel

/-- What the loop needs of the recursive call when fewer than `k` packages are
unseen: it returns, the seen set only grows, and the returned node list is the
callee's own node. -/
def SelfOk {n : Nat} (h : Heap n)
    (self : List (Fin n) → Fin n → Int → Except Halt (WalkResult n)) (k : Nat) : Prop :=
  ∀ seen p d, unseen seen < k →
    ∃ r, self seen p d = .ok r ∧ seen ⊆ r.seen ∧ r.nodes = [pkgToNode (h p)]

/-- The parts of a loop state that end up in the result, all with identities in `P`. -/
def StateIn (P : String → Prop) {n : Nat} (st : LoopState n) : Prop :=
  (∀ c ∈ subclustersOfMap st.clusters, P c.ID) ∧
  (∀ nd ∈ allNodesOfMap st.clusters, P nd.ID) ∧
  (∀ e ∈ st.edges, P e.From.ID ∧ P e.To.ID)

/-- A walk result with all identities in `P`. -/
def ResultIn (P : String → Prop) {n : Nat} (r : WalkResult n) : Prop :=
  (∀ c ∈ r.cluster.subclusters, P c.ID) ∧
  (∀ nd ∈ r.nodes ++ r.cluster.allNodes, P nd.ID) ∧
  (∀ e ∈ r.edges, P e.From.ID ∧ P e.To.ID)

/-- Two heaps that differ at most in the `Errors` of their packages. -/
def SameButErrors {n : Nat} (h h' : Heap n) : Prop :=
  ∀ p, (h' p).PkgPath = (h p).PkgPath ∧ (h' p).Name = (h p).Name ∧
    (h' p).Imports = (h p).Imports

/-- The import maps of the heap are maps: no key occurs twice. -/
def UniqueKeys {n : Nat} (h : Heap n) : Prop :=
  ∀ p, ((h p).Imports.map Prod.fst).Nodup

/-- Every edge starts at `lpn` or at a node of the clusters `cs`, and ends at a
node of the clusters `cs`. -/
def Anchored (lpn : dotNode) (cs : List (String × dotCluster)) (es : List dotEdge) : Prop :=
  ∀ e ∈ es, (e.From = lpn ∨ e.From ∈ allNodesOfMap cs) ∧ e.To ∈ allNodesOfMap cs

/-- Loop invariant behind `Anchored`: the remaining keys are distinct and none of
them names a cluster attached so far, the depth cannot overflow, and the edges
collected so far are anchored. -/
def AnchorInv {n : Nat} (lpn : dotNode) (d : Int) (rest : List (String × Fin n))
    (st : LoopState n) : Prop :=
  (rest.map Prod.fst).Nodup ∧
  (∀ k ∈ st.clusters.map Prod.fst, k ∉ rest.map Prod.fst) ∧
  d + unseen st.seen < 2 ^ 63 ∧
  Anchored lpn st.clusters st.edges

/-- Every cluster of the map `cs`, at any depth, holds a node with its own ID. -/
def OwnNodes (cs : List (String × dotCluster)) : Prop :=
  ∀ c ∈ subclustersOfMap cs, ∃ nd ∈ c.Nodes, nd.ID = c.ID

/-- Every cluster in `cl` has, for each child cluster attached to it, an edge in
`es` from its own ID to the ID of the child. -/
def ChildEdges (cl : List dotCluster) (es : List dotEdge) : Prop :=
  ∀ c ∈ cl, ∀ kc ∈ c.Clusters, ∃ e ∈ es, e.From.ID = c.ID ∧ e.To.ID = kc.2.ID

/-- Loop invariant behind `OwnNodes`. -/
def OwnNodesInv {n : Nat} (d : Int) (_rest : List (String × Fin n)) (st : LoopState n) : Prop :=
  d + unseen st.seen < 2 ^ 63 ∧ OwnNodes st.clusters

/-- Loop invariant behind `ChildEdges`. -/
def ChildEdgesInv {n : Nat} (lpn : dotNode) (_rest : List (String × Fin n))
    (st : LoopState n) : Prop :=
  (∀ kc ∈ st.clusters, ∃ e ∈ st.edges, e.From = lpn ∧ e.To.ID = kc.2.ID) ∧
  ChildEdges (subclustersOfMap st.clusters) st.edges

/-- The cluster `doPkg` returns for a package none of whose imports is walked. -/
def bareCluster {n : Nat} (p : Package n) (deep : Int) : dotCluster :=
  .mk p.PkgPath [] (if deep > 0 then [pkgToNode p] else []) (clusterAttrs p.PkgPath)

/-- Every identity that appears in a walk result: IDs of the clusters of the tree,
of the returned nodes, of the nodes of the clusters, and of the ends of the
edges. -/
def WalkResult.units {n : Nat} (r : WalkResult n) : List String :=
  r.cluster.subclusters.map (fun c => c.ID) ++
    (r.nodes ++ r.cluster.allNodes).map (fun nd => nd.ID) ++
    r.edges.map (fun e => e.From.ID) ++ r.edges.map (fun e => e.To.ID)

/-- Distinct packages of the heap have distinct identities (`PkgPath`). -/
def InjPaths {n : Nat} (h : Heap n) : Prop :=
  ∀ p q : Fin n, (h p).PkgPath = (h q).PkgPath → p = q

/-- The edge ends `tos` are the nodes of the packages `ps`, which are distinct,
were unseen in `s0` and are seen in `s1`. -/
def FreshTargets {n : Nat} (h : Heap n) (s0 s1 : List (Fin n)) (tos : List dotNode) : Prop :=
  ∃ ps : List (Fin n), ps.Nodup ∧ (∀ q ∈ ps, q ∉ s0 ∧ q ∈ s1) ∧
    tos = ps.map (fun q => pkgToNode (h q))

/-- Loop invariant behind `FreshTargets`. -/
def FreshTargetsInv {n : Nat} (h : Heap n) (s0 : List (Fin n))
    (_rest : List (String × Fin n)) (st : LoopState n) : Prop :=
  s0 ⊆ st.seen ∧ FreshTargets h s0 st.seen (st.edges.map (fun e => e.To))

/-- The cluster `c` is the one some call of `doPkg` on the package `u` returned. -/
def BuiltFor {n : Nat} (IsStandPkg : String → Bool) (callDeep : Int) (h : Heap n)
    (u : Fin n) (c : dotCluster) : Prop :=
  ∃ fuel s d r, doPkgFuel IsStandPkg callDeep h fuel s u d = .ok r ∧ r.cluster = c

/-- The edge `e` goes from the node of `u` to the node of `v`, where `v` is not
standard, `key` maps to `v` in the import map of `u`, and the cluster built
for `v` is stored under `key` in the map `cs`. -/
def EdgeVia {n : Nat} (IsStandPkg : String → Bool) (callDeep : Int) (h : Heap n)
    (u : Fin n) (cs : List (String × dotCluster)) (e : dotEdge) : Prop :=
  ∃ (v : Fin n) (key : String) (cv : dotCluster),
    (key, v) ∈ (h u).Imports ∧ e.From = pkgToNode (h u) ∧ e.To = pkgToNode (h v) ∧
    IsStandPkg (h v).PkgPath = false ∧ (key, cv) ∈ cs ∧ BuiltFor IsStandPkg callDeep h v cv

/-- The edge `e` is accounted for by a cluster of `cl`: that cluster was built for
a unit `u`, and `e` is an edge of `u` via the cluster's own `Clusters` map. -/
def EdgeJustified {n : Nat} (IsStandPkg : String → Bool) (callDeep : Int) (h : Heap n)
    (cl : List dotCluster) (e : dotEdge) : Prop :=
  ∃ (u : Fin n) (cu : dotCluster), cu ∈ cl ∧ BuiltFor IsStandPkg callDeep h u cu ∧
    EdgeVia IsStandPkg callDeep h u cu.Clusters e

/-- Loop invariant behind `EdgeJustified`, in the walk of the package `u`. -/
def EdgeJustifiedInv {n : Nat} (IsStandPkg : String → Bool) (callDeep : Int) (h : Heap n)
    (u : Fin n) (_rest : List (String × Fin n)) (st : LoopState n) : Prop :=
  ∀ e ∈ st.edges, EdgeVia IsStandPkg callDeep h u st.clusters e ∨
    EdgeJustified IsStandPkg callDeep h (subclustersOfMap st.clusters) e

mutual
/-- The parent/child pairs of a cluster tree, as pairs of IDs: for every cluster
and every entry of its `Clusters` map, in order, the pair of the cluster's ID and
the child's ID, followed by the pairs inside the child. There is one pair for
every cluster of the tree other than the root. -/
def dotCluster.treeEdges : dotCluster → List (String × String)
  | .mk i cs _ _ => treeEdgesOfMap i cs
/-- The parent/child pairs for the entries of the `Clusters` map of a cluster with
the ID `parent`. -/
def treeEdgesOfMap (parent : String) : List (String × dotCluster) → List (String × String)
  | [] => []
  | (_, c) :: rest => ((parent, c.ID) :: c.treeEdges) ++ treeEdgesOfMap parent rest
end

/-- The identities of the two ends of an edge. -/
def dotEdge.ids (e : dotEdge) : String × String := (e.From.ID, e.To.ID)

/-- Loop invariant behind the mirror property, for a cluster with the ID `parent`. -/
def MirrorInv {n : Nat} (parent : String) (_rest : List (String × Fin n))
    (st : LoopState n) : Prop :=
  st.edges.map dotEdge.ids = treeEdgesOfMap parent st.clusters ∧
  st.edges.map (fun e => e.To.ID) = (subclustersOfMap st.clusters).map (fun c => c.ID)

/-- The map `φ` sends every package object of the set `R` to a copy of it: `R` holds
every package that a package of `R` imports, `φ` sends distinct packages of `R` to
distinct objects, and the copy has the same `PkgPath`, `Name` and `Errors` and
imports, under the same keys, the copies of what the original imports. -/
def CopyOn {n : Nat} (h : Heap n) (R : Fin n → Prop) (φ : Fin n → Fin n) : Prop :=
  (∀ p, R p → ∀ e ∈ (h p).Imports, R e.2) ∧
  (∀ p q, R p → R q → φ p = φ q → p = q) ∧
  (∀ p, R p → (h (φ p)).PkgPath = (h p).PkgPath ∧ (h (φ p)).Name = (h p).Name ∧
    (h (φ p)).Errors = (h p).Errors ∧
    (h (φ p)).Imports = (h p).Imports.map (fun e => (e.1, φ e.2)))

/-- The seen set `s` holds a package of `R` exactly when `t` holds its copy. -/
def SeenAlike {n : Nat} (R : Fin n → Prop) (φ : Fin n → Fin n) (s t : List (Fin n)) : Prop :=
  ∀ p, R p → (p ∈ s ↔ φ p ∈ t)

/-! ## Concrete inputs -/

/-- A package without load errors whose name is its path. -/
def mkPkg {n : Nat} (path : String) (imports : List (String × Fin n)) : Package n :=
  { PkgPath := path, Name := path, Imports := imports, Errors := none }

/-- One package `A` that imports nothing. -/
def loneHeap : Heap 1 := fun _ => mkPkg "A" []

/-- The classifier that marks exactly `fmt` standard. -/
def fmtIsStd (name : String) : Bool := name == "fmt"

/-- The root is the standard package `fmt`; it imports the non-standard `mypkg`,
which imports `fmt` back. -/
def stdRootHeap : Heap 2 :=
  ![mkPkg "fmt" [("mypkg", 1)], mkPkg "mypkg" [("fmt", 0)]]

/-- A unit importing standard `fmt` and non-standard `mypkg`. -/
def fmtHeap : Heap 3 :=
  ![mkPkg "main" [("fmt", 1), ("mypkg", 2)], mkPkg "fmt" [], mkPkg "mypkg" []]

/-- Root `A` imports `B`. -/
def pairHeap : Heap 2 := ![mkPkg "A" [("B", 1)], mkPkg "B" []]

/-- The heap `pairHeap` where `B` carries a load error. -/
def pairHeapErr : Heap 2 :=
  ![mkPkg "A" [("B", 1)], { mkPkg "B" [] with Errors := some ["broken"] }]

/-- Root `A` imports `B`, and `B` imports `A` back. -/
def cycleHeap : Heap 2 := ![mkPkg "A" [("B", 1)], mkPkg "B" [("A", 0)]]

/-- A chain of five packages: `A` imports `B`, `B` imports `C`, `C` imports `D`,
`D` imports `E`. -/
def chainHeap : Heap 5 :=
  ![mkPkg "A" [("B", 1)], mkPkg "B" [("C", 2)], mkPkg "C" [("D", 3)], mkPkg "D" [("E", 4)],
    mkPkg "E" []]

/-- A diamond: the root (path `pa`) imports the units with paths `pb` and `pc`, and
both import the unit with path `pd`; every import is keyed by the imported path.
`swap` selects the iteration order of the root's import map (the other maps have
at most one entry). -/
def diamondHeap (pa pb pc pd : String) (swap : Bool) : Heap 4 :=
  ![mkPkg pa (if swap then [(pc, 2), (pb, 1)] else [(pb, 1), (pc, 2)]),
    mkPkg pb [(pd, 3)], mkPkg pc [(pd, 3)], mkPkg pd []]

/-- Root `A` imports `B` and `C`, and `B` imports `C`. `swap` selects the
iteration order of the root's import map: `B` first, or `C` first. -/
def triangleHeap (swap : Bool) : Heap 3 :=
  ![mkPkg "A" (if swap then [("C", 2), ("B", 1)] else [("B", 1), ("C", 2)]),
    mkPkg "B" [("C", 2)], mkPkg "C" []]

/-- The cycle of three units: `A` imports `B`, `B` imports `C`, `C` imports `A`. -/
def cycle3Heap : Heap 3 :=
  ![mkPkg "A" [("B", 1)], mkPkg "B" [("C", 2)], mkPkg "C" [("A", 0)]]

/-- Root `A` imports, under two keys, two different packages that both have the
path `B`. -/
def twinHeap : Heap 3 :=
  ![mkPkg "A" [("B", 1), ("vendor/B", 2)], mkPkg "B" [], mkPkg "B" []]

/-- Two loads of the same source: `A` imports `B`, once as the objects 0 and 1 and
once as the objects 2 and 3. -/
def twoLoadsHeap : Heap 4 :=
  ![mkPkg "A" [("B", 1)], mkPkg "B" [], mkPkg "A" [("B", 3)], mkPkg "B" []]

/-- A linear import chain of `k` units: unit `i` has the path `path i` and, when it
is not the last, imports only unit `i + 1`, keyed by that unit's path. -/
def chainOf (k : Nat) (path : Fin k → String) : Heap k := fun i =>
  if hi : i.val + 1 < k then mkPkg (path i) [(path ⟨i.val + 1, hi⟩, ⟨i.val + 1, hi⟩)]
  else mkPkg (path i) []

end PackageDep

/-! # Package `cache` of gopls: `gopls/internal/lsp/cache/pkg.go` -/

namespace Cache

/-- Modelled from the spec: the type `Metadata` (declared outside the sources at hand); only
the two maps that the methods of `pkg` read, typed as the comment on `pkg.deps`
says: from a package path, respectively an import path, to a package ID. A Go
map is an association list without repeated keys, read with `List.lookup`. -/
structure Metadata where
  DepsByPkgPath : List (String × String)
  DepsByImpPath : List (String × String)

/-- The fields of `pkg` that `DirectDep`, `ResolveImportPath` and
`MissingDependencies` read. `deps` is `map[PackageID]*pkg`, where `α` stands for
what a non-nil `*pkg` points to and `none` for a nil pointer; `typesImports`
holds `Path()` of each package of `p.types.Imports()`, in order. -/
structure pkg (α : Type) where
  m : Metadata
  deps : List (String × Option α)
  typesImports : List String

/-- The Go expression `p.deps[id]`: the stored pointer, nil when the key is absent. -/
def pkg.depsAt {α : Type} (p : pkg α) (id : String) : Option α :=
  match p.deps.lookup id with
  | some imp => imp
  | none => none

/-- Translation of `(*pkg).DirectDep`. -/
def pkg.DirectDep {α : Type} (p : pkg α) (pkgPath : String) : Except String α :=
  match p.m.DepsByPkgPath.lookup pkgPath with
  | some id =>
    match p.depsAt id with
    | some imp => .ok imp
    | none => .error ("package does not import package with path " ++ pkgPath)
  | none => .error ("package does not import package with path " ++ pkgPath)

/-- Translation of `(*pkg).ResolveImportPath`. -/
def pkg.ResolveImportPath {α : Type} (p : pkg α) (importPath : String) : Except String α :=
  match p.m.DepsByImpPath.lookup importPath with
  | some id =>
    if id ≠ "" then
      match p.depsAt id with
      | some imp => .ok imp
      | none => .error ("package does not import " ++ importPath)
    else .error ("package does not import " ++ importPath)
  | none => .error ("package does not import " ++ importPath)

/-- The loop of `MissingDependencies` (lines 164-168) over the remaining paths of
`p.types.Imports()`, with `missing` the slice built so far. -/
def missingLoop (depsByImpPath : List (String × String)) :
    List String → List String → List String
  | [], missing => missing
  | path :: rest, missing =>
    match depsByImpPath.lookup path with
    | some id =>
      if id = "" then missingLoop depsByImpPath rest (missing ++ [path])
      else missingLoop depsByImpPath rest missing
    | none => missingLoop depsByImpPath rest missing

/-- The library call `sort.Strings`: the strings in ascending order. (Go orders
strings by their bytes, which for UTF-8 text is the order of the code points.) -/
def sortStrings (l : List String) : List String :=
  l.insertionSort (· ≤ ·)

/-- Translation of `(*pkg).MissingDependencies`. -/
def pkg.MissingDependencies {α : Type} (p : pkg α) : List String :=
  sortStrings (missingLoop p.m.DepsByImpPath p.typesImports [])

/-- An import path is missing: its `DepsByImpPath` entry exists and is the blank ID. -/
def isBlank (depsByImpPath : List (String × String)) (path : String) : Bool :=
  depsByImpPath.lookup path == some ""

/-- A package that imports `a` (resolved to `A`), `b` (blank entry: missing) and
`c` (entry present, but no such dependency loaded); its type-checked package
lists the imports `zeta`, `c`, `b`, `a`, `alpha`, where `zeta` and `alpha` have
blank entries too. -/
def samplePkg : pkg String :=
  { m :=
      { DepsByPkgPath := [("example.com/a", "ida"), ("example.com/c", "idc")]
        DepsByImpPath := [("a", "ida"), ("b", ""), ("c", "idc"), ("zeta", ""), ("alpha", "")] }
    deps := [("ida", some "A"), ("idnil", none)]
    typesImports := ["zeta", "c", "b", "a", "alpha", "unknown"] }

end Cache

/-! # Theorems -/

namespace PackageDep

/-! ## Arithmetic, maps and cluster trees -/

theorem addInt_of_range {a b : Int} (h1 : -2 ^ 63 ≤ a + b) (h2 : a + b < 2 ^ 63) :
    addInt a b = a + b := by
  unfold addInt
  omega

theorem addInt_zero_one : addInt 0 1 = 1 := by decide

theorem addInt_one_one : addInt 1 1 = 2 := by decide

theorem addInt_two_one : addInt 2 1 = 3 := by decide

theorem unseen_le {n : Nat} (seen : List (Fin n)) : unseen seen ≤ n := by
  unfold unseen
  calc (Finset.univ.filter (fun p : Fin n => p ∉ seen)).card
      ≤ (Finset.univ : Finset (Fin n)).card := Finset.card_filter_le _ _
    _ = n := by simp

theorem unseen_mono {n : Nat} {s t : List (Fin n)} (hst : s ⊆ t) : unseen t ≤ unseen s := by
  unfold unseen
  apply Finset.card_le_card
  intro p hp
  simp only [Finset.mem_filter, Finset.mem_univ, true_and] at hp ⊢
  exact fun hs => hp (hst hs)

theorem unseen_cons_lt {n : Nat} {seen : List (Fin n)} {p : Fin n} (hp : p ∉ seen) :
    unseen (p :: seen) < unseen seen := by
  unfold unseen
  apply Finset.card_lt_card
  rw [Finset.ssubset_iff_of_subset]
  · exact ⟨p, by simp [hp], by simp⟩
  · intro q hq
    simp only [Finset.mem_filter, Finset.mem_univ, true_and, List.mem_cons, not_or] at hq ⊢
    exact hq.2

theorem addInt_succ_of_unseen {n : Nat} {d : Int} {seen : List (Fin n)} {p : Fin n}
    (h0 : 0 ≤ d) (hp : p ∉ seen) (hb : d + unseen seen < 2 ^ 63) : addInt d 1 = d + 1 := by
  have := unseen_cons_lt hp
  exact addInt_of_range (by omega) (by omega)

theorem mem_mapSet {α : Type} {cs : List (String × α)} {k : String} {v : α} {x : String × α}
    (hx : x ∈ mapSet cs k v) : x ∈ cs ∨ x = (k, v) := by
  induction cs with
  | nil => simpa [mapSet] using hx
  | cons e rest ih =>
    obtain ⟨k0, v0⟩ := e
    simp only [mapSet] at hx
    split_ifs at hx with hk
    · simp only [List.mem_cons] at hx ⊢
      tauto
    · simp only [List.mem_cons] at hx ⊢
      rcases hx with hx | hx
      · exact Or.inl (Or.inl hx)
      · rcases ih hx with h1 | h1
        · exact Or.inl (Or.inr h1)
        · exact Or.inr h1

theorem mapSet_of_not_mem {α : Type} (cs : List (String × α)) (k : String) (v : α)
    (hk : k ∉ cs.map Prod.fst) : mapSet cs k v = cs ++ [(k, v)] := by
  induction cs with
  | nil => rfl
  | cons e rest ih =>
    obtain ⟨k0, v0⟩ := e
    simp only [List.map_cons, List.mem_cons, not_or] at hk
    simp only [mapSet, if_neg (Ne.symm hk.1), ih hk.2, List.cons_append]

theorem depthOfMap_mapSet_le (cs : List (String × dotCluster)) (k : String) (c : dotCluster) :
    depthOfMap (mapSet cs k c) ≤ max (depthOfMap cs) c.depth := by
  induction cs with
  | nil => simp [mapSet, depthOfMap]
  | cons e rest ih =>
    obtain ⟨k0, c0⟩ := e
    simp only [mapSet]
    split_ifs with hk
    · simp only [depthOfMap]; omega
    · simp only [depthOfMap]; omega

theorem mem_subclustersOfMap_mapSet {cs : List (String × dotCluster)} {k : String}
    {c x : dotCluster} (hx : x ∈ subclustersOfMap (mapSet cs k c)) :
    x ∈ subclustersOfMap cs ∨ x ∈ c.subclusters := by
  induction cs with
  | nil => simpa [mapSet, subclustersOfMap] using hx
  | cons e rest ih =>
    obtain ⟨k0, c0⟩ := e
    simp only [mapSet] at hx
    split_ifs at hx with hk
    · simp only [subclustersOfMap, List.mem_append] at hx ⊢
      tauto
    · simp only [subclustersOfMap, List.mem_append] at hx ⊢
      rcases hx with hx | hx
      · exact Or.inl (Or.inl hx)
      · rcases ih hx with h1 | h1
        · exact Or.inl (Or.inr h1)
        · exact Or.inr h1

theorem mem_allNodesOfMap_mapSet {cs : List (String × dotCluster)} {k : String}
    {c : dotCluster} {x : dotNode} (hx : x ∈ allNodesOfMap (mapSet cs k c)) :
    x ∈ allNodesOfMap cs ∨ x ∈ c.allNodes := by
  induction cs with
  | nil => simpa [mapSet, allNodesOfMap] using hx
  | cons e rest ih =>
    obtain ⟨k0, c0⟩ := e
    simp only [mapSet] at hx
    split_ifs at hx with hk
    · simp only [allNodesOfMap, List.mem_append] at hx ⊢
      tauto
    · simp only [allNodesOfMap, List.mem_append] at hx ⊢
      rcases hx with hx | hx
      · exact Or.inl (Or.inl hx)
      · rcases ih hx with h1 | h1
        · exact Or.inl (Or.inr h1)
        · exact Or.inr h1

theorem allNodesOfMap_append (cs ds : List (String × dotCluster)) :
    allNodesOfMap (cs ++ ds) = allNodesOfMap cs ++ allNodesOfMap ds := by
  induction cs with
  | nil => rfl
  | cons e rest ih =>
    obtain ⟨k0, c0⟩ := e
    show allNodesOfMap ((k0, c0) :: (rest ++ ds)) = _
    simp only [allNodesOfMap, ih, List.append_assoc]

theorem subclusters_eq (c : dotCluster) : c.subclusters = c :: subclustersOfMap c.Clusters := by
  cases c with
  | mk i cs nds a => rfl

theorem subclustersOfMap_append (cs ds : List (String × dotCluster)) :
    subclustersOfMap (cs ++ ds) = subclustersOfMap cs ++ subclustersOfMap ds := by
  induction cs with
  | nil => rfl
  | cons e rest ih =>
    obtain ⟨k0, c0⟩ := e
    show subclustersOfMap ((k0, c0) :: (rest ++ ds)) = _
    simp only [subclustersOfMap, ih, List.append_assoc]

theorem treeEdgesOfMap_append (parent : String) (cs ds : List (String × dotCluster)) :
    treeEdgesOfMap parent (cs ++ ds) = treeEdgesOfMap parent cs ++ treeEdgesOfMap parent ds := by
  induction cs with
  | nil => rfl
  | cons e rest ih =>
    obtain ⟨k0, c0⟩ := e
    show treeEdgesOfMap parent ((k0, c0) :: (rest ++ ds)) = _
    simp only [treeEdgesOfMap, ih, List.append_assoc, List.cons_append]

theorem treeEdges_eq (c : dotCluster) : c.treeEdges = treeEdgesOfMap c.ID c.Clusters := by
  cases c with
  | mk i cs nds a => rfl

/-! ## The loop and the shape of a result -/

/-- Invariant rule for the import loop: an invariant of the remaining entries and
the loop state that survives each of the three kinds of step survives the loop. -/
theorem importLoop_induct {n : Nat} (IsStandPkg : String → Bool) (callDeep : Int) (h : Heap n)
    (self : List (Fin n) → Fin n → Int → Except Halt (WalkResult n))
    (lpn : dotNode) (deep : Int)
    (Inv : List (String × Fin n) → LoopState n → Prop)
    (hskip : ∀ name p rest st, Inv ((name, p) :: rest) st →
      (IsStandPkg (h p).PkgPath = true ∨ p ∈ st.seen) → Inv rest st)
    (hmark : ∀ name p rest st, Inv ((name, p) :: rest) st →
      IsStandPkg (h p).PkgPath = false → p ∉ st.seen → addInt deep 1 = callDeep →
      Inv rest { st with seen := p :: st.seen })
    (hcall : ∀ name p rest st r n0 ns, Inv ((name, p) :: rest) st →
      IsStandPkg (h p).PkgPath = false → p ∉ st.seen → addInt deep 1 ≠ callDeep →
      self (p :: st.seen) p (addInt deep 1) = .ok r → r.nodes = n0 :: ns →
      Inv rest
        { clusters := mapSet st.clusters name r.cluster
          edges := st.edges ++ [{ From := lpn, To := n0, Attrs := edgeAttrs }] ++ r.edges
          seen := r.seen }) :
    ∀ (imps : List (String × Fin n)) (st st' : LoopState n), Inv imps st →
      importLoop IsStandPkg callDeep h self lpn deep imps st = .ok st' → Inv [] st' := by
  intro imps
  induction imps with
  | nil => intro st st' hst hr; simp only [importLoop, Except.ok.injEq] at hr; exact hr ▸ hst
  | cons e rest ih =>
    obtain ⟨name, p⟩ := e
    intro st st' hst
    simp only [importLoop]
    split_ifs with h1 h2 h3
    · exact ih st st' (hskip name p rest st hst (Or.inl h1))
    · exact ih st st' (hskip name p rest st hst (Or.inr h2))
    · exact ih _ st' (hmark name p rest st hst (by simpa using h1) h2 h3)
    · cases hs : self (p :: st.seen) p (addInt deep 1) with
      | error e => simp
      | ok r =>
        cases hn : r.nodes with
        | nil => simp [hn]
        | cons n0 ns =>
          simp only [hn]
          exact ih _ st' (hcall name p rest st r n0 ns hst (by simpa using h1) h2 h3 hs hn)

/-- The invariant rule for heaps whose import maps have no repeated key: the walk
of a package never assigns twice to a key of `Clusters`, so the assignment adds
an entry at the end. Each step also knows that its entry is in the import map. -/
theorem importLoop_induct_keys {n : Nat} (IsStandPkg : String → Bool) (callDeep : Int)
    (h : Heap n)
    (self : List (Fin n) → Fin n → Int → Except Halt (WalkResult n))
    (lpn : dotNode) (deep : Int) (imps : List (String × Fin n))
    (hnd : (imps.map Prod.fst).Nodup)
    (Inv : List (String × Fin n) → LoopState n → Prop)
    (hskip : ∀ name p rest st, Inv ((name, p) :: rest) st → (name, p) ∈ imps →
      (IsStandPkg (h p).PkgPath = true ∨ p ∈ st.seen) → Inv rest st)
    (hmark : ∀ name p rest st, Inv ((name, p) :: rest) st → (name, p) ∈ imps →
      IsStandPkg (h p).PkgPath = false → p ∉ st.seen → addInt deep 1 = callDeep →
      Inv rest { st with seen := p :: st.seen })
    (hcall : ∀ name p rest st r n0 ns, Inv ((name, p) :: rest) st → (name, p) ∈ imps →
      IsStandPkg (h p).PkgPath = false → p ∉ st.seen → addInt deep 1 ≠ callDeep →
      self (p :: st.seen) p (addInt deep 1) = .ok r → r.nodes = n0 :: ns →
      Inv rest
        { clusters := st.clusters ++ [(name, r.cluster)]
          edges := st.edges ++ [{ From := lpn, To := n0, Attrs := edgeAttrs }] ++ r.edges
          seen := r.seen })
    (s : List (Fin n)) (st' : LoopState n)
    (hinit : Inv imps { clusters := [], edges := [], seen := s })
    (hr : importLoop IsStandPkg callDeep h self lpn deep imps
      { clusters := [], edges := [], seen := s } = .ok st') : Inv [] st' := by
  have hall := importLoop_induct IsStandPkg callDeep h self lpn deep
    (fun rest st => (rest.map Prod.fst).Nodup ∧
      (∀ k ∈ st.clusters.map Prod.fst, k ∉ rest.map Prod.fst) ∧
      (∀ x ∈ rest, x ∈ imps) ∧ Inv rest st)
    ?_ ?_ ?_ imps { clusters := [], edges := [], seen := s } st'
    ⟨hnd, by simp, fun _ hx => hx, hinit⟩ hr
  · exact hall.2.2.2
  · intro name p rest st hi hc
    obtain ⟨h1, h2, h3, h4⟩ := hi
    rw [List.map_cons, List.nodup_cons] at h1
    exact ⟨h1.2, fun k hk hkr => h2 k hk (List.mem_cons_of_mem _ hkr),
      fun x hx => h3 x (List.mem_cons_of_mem _ hx),
      hskip name p rest st h4 (h3 _ (List.mem_cons_self _ _)) hc⟩
  · intro name p rest st hi hstd hp hd
    obtain ⟨h1, h2, h3, h4⟩ := hi
    rw [List.map_cons, List.nodup_cons] at h1
    exact ⟨h1.2, fun k hk hkr => h2 k hk (List.mem_cons_of_mem _ hkr),
      fun x hx => h3 x (List.mem_cons_of_mem _ hx),
      hmark name p rest st h4 (h3 _ (List.mem_cons_self _ _)) hstd hp hd⟩
  · intro name p rest st r n0 ns hi hstd hp hd hs hn
    obtain ⟨h1, h2, h3, h4⟩ := hi
    rw [List.map_cons, List.nodup_cons] at h1
    have hname : name ∉ st.clusters.map Prod.fst := fun hm => h2 name hm (by simp)
    rw [mapSet_of_not_mem _ _ _ hname]
    refine ⟨h1.2, ?_, fun x hx => h3 x (List.mem_cons_of_mem _ hx),
      hcall name p rest st r n0 ns h4 (h3 _ (List.mem_cons_self _ _)) hstd hp hd hs hn⟩
    intro k hk hkr
    simp only [List.map_append, List.mem_append, List.map_cons, List.map_nil,
      List.mem_singleton] at hk
    rcases hk with hk | hk
    · exact h2 k hk (List.mem_cons_of_mem _ hkr)
    · subst hk; exact h1.1 hkr

/-- A returning call ran its loop to the end and packed the loop state. -/
theorem doPkgFuel_ok_inv {n : Nat} (IsStandPkg : String → Bool) (callDeep : Int) (h : Heap n)
    (fuel : Nat) (s : List (Fin n)) (p : Fin n) (d : Int) (r : WalkResult n)
    (hr : doPkgFuel IsStandPkg callDeep h fuel s p d = .ok r) :
    ∃ fuel0 st, fuel = fuel0 + 1 ∧
      importLoop IsStandPkg callDeep h (doPkgFuel IsStandPkg callDeep h fuel0) (pkgToNode (h p)) d
        (h p).Imports { clusters := [], edges := [], seen := s } = .ok st ∧
      r = { cluster := .mk (h p).PkgPath st.clusters
              (if d > 0 then [pkgToNode (h p)] else []) (clusterAttrs (h p).PkgPath)
            nodes := [pkgToNode (h p)]
            edges := st.edges
            seen := st.seen } := by
  cases fuel with
  | zero => simp [doPkgFuel] at hr
  | succ fuel =>
    simp only [doPkgFuel] at hr
    split at hr
    · simp at hr
    · rename_i st hst
      simp only [Except.ok.injEq] at hr
      exact ⟨fuel, st, rfl, hst, hr.symm⟩

/-- Shape of what a returning call hands back: its own node as the only element of
the node list, its own node in the cluster exactly when `deep > 0`. -/
theorem doPkgFuel_shape {n : Nat} (IsStandPkg : String → Bool) (callDeep : Int) (h : Heap n)
    (fuel : Nat) (s : List (Fin n)) (p : Fin n) (d : Int) (r : WalkResult n)
    (hr : doPkgFuel IsStandPkg callDeep h fuel s p d = .ok r) :
    r.nodes = [pkgToNode (h p)] ∧
    r.cluster.Nodes = (if d > 0 then [pkgToNode (h p)] else []) ∧
    r.cluster.ID = (h p).PkgPath ∧
    r.cluster.Attrs = clusterAttrs (h p).PkgPath := by
  cases fuel with
  | zero => simp [doPkgFuel] at hr
  | succ fuel =>
    simp only [doPkgFuel] at hr
    split at hr
    · simp at hr
    · simp only [Except.ok.injEq] at hr
      subst hr
      simp [dotCluster.Nodes, dotCluster.ID, dotCluster.Attrs]

theorem doPkgFuel_seen_subset {n : Nat} (IsStandPkg : String → Bool) (callDeep : Int) (h : Heap n) :
    ∀ fuel s p d r, doPkgFuel IsStandPkg callDeep h fuel s p d = .ok r → s ⊆ r.seen := by
  intro fuel
  induction fuel with
  | zero => intro s p d r hr; simp [doPkgFuel] at hr
  | succ fuel ih =>
    intro s p d r hr
    obtain ⟨fuel0, st, hf, hst, rfl⟩ := doPkgFuel_ok_inv IsStandPkg callDeep h _ s p d r hr
    obtain rfl : fuel0 = fuel := by omega
    exact importLoop_induct IsStandPkg callDeep h _ (pkgToNode (h p)) d
      (fun _ st => s ⊆ st.seen)
      (fun _ _ _ _ hi _ => hi)
      (fun _ _ _ _ hi _ _ _ x hx => List.mem_cons_of_mem _ (hi hx))
      (fun _ q _ st0 r _ _ hi _ _ _ hs _ x hx =>
        ih _ _ _ _ hs (List.mem_cons_of_mem _ (hi hx)))
      _ _ _ (fun _ hx => hx) hst

theorem importLoop_all_skipped {n : Nat} (IsStandPkg : String → Bool) (callDeep : Int) (h : Heap n)
    (self : List (Fin n) → Fin n → Int → Except Halt (WalkResult n))
    (lpn : dotNode) (deep : Int) (st : LoopState n) :
    ∀ (imps : List (String × Fin n)),
      (∀ e ∈ imps, IsStandPkg (h e.2).PkgPath = true ∨ e.2 ∈ st.seen) →
      importLoop IsStandPkg callDeep h self lpn deep imps st = .ok st := by
  intro imps
  induction imps with
  | nil => intro _; rfl
  | cons e rest ih =>
    obtain ⟨name, p⟩ := e
    intro hall
    have hrest := ih (fun e he => hall e (List.mem_cons_of_mem _ he))
    simp only [importLoop]
    rcases hall (name, p) (List.mem_cons_self _ _) with h1 | h1
    · rw [if_pos h1]; exact hrest
    · split_ifs
      · exact hrest
      · exact hrest

theorem doPkgFuel_marks_imports {n : Nat} (IsStandPkg : String → Bool) (callDeep : Int) (h : Heap n)
    (fuel : Nat) (s : List (Fin n)) (p : Fin n) (d : Int) (r : WalkResult n)
    (hr : doPkgFuel IsStandPkg callDeep h fuel s p d = .ok r) :
    ∀ e ∈ (h p).Imports, IsStandPkg (h e.2).PkgPath = true ∨ e.2 ∈ r.seen := by
  obtain ⟨fuel0, st, hf, hst, rfl⟩ := doPkgFuel_ok_inv IsStandPkg callDeep h _ s p d r hr
  have hinv := importLoop_induct IsStandPkg callDeep h _ (pkgToNode (h p)) d
    (fun rest st => ∀ e ∈ (h p).Imports,
      IsStandPkg (h e.2).PkgPath = true ∨ e ∈ rest ∨ e.2 ∈ st.seen)
    ?_ ?_ ?_ (h p).Imports { clusters := [], edges := [], seen := s } st
    (fun e he => Or.inr (Or.inl he)) hst
  · intro e he
    rcases hinv e he with h1 | h1 | h1
    · exact Or.inl h1
    · simp at h1
    · exact Or.inr h1
  · intro name q rest st0 hi hq e he
    rcases hi e he with h1 | h1 | h1
    · exact Or.inl h1
    · rw [List.mem_cons] at h1
      rcases h1 with h1 | h1
      · subst h1
        rcases hq with h2 | h2
        · exact Or.inl h2
        · exact Or.inr (Or.inr h2)
      · exact Or.inr (Or.inl h1)
    · exact Or.inr (Or.inr h1)
  · intro name q rest st0 hi _ _ _ e he
    rcases hi e he with h1 | h1 | h1
    · exact Or.inl h1
    · rw [List.mem_cons] at h1
      rcases h1 with h1 | h1
      · subst h1
        exact Or.inr (Or.inr (List.mem_cons_self _ _))
      · exact Or.inr (Or.inl h1)
    · exact Or.inr (Or.inr (List.mem_cons_of_mem _ h1))
  · intro name q rest st0 r n0 ns hi _ _ _ hs _ e he
    have hsub := doPkgFuel_seen_subset IsStandPkg callDeep h _ _ _ _ _ hs
    rcases hi e he with h1 | h1 | h1
    · exact Or.inl h1
    · rw [List.mem_cons] at h1
      rcases h1 with h1 | h1
      · subst h1
        exact Or.inr (Or.inr (hsub (List.mem_cons_self _ _)))
      · exact Or.inr (Or.inl h1)
    · exact Or.inr (Or.inr (hsub (List.mem_cons_of_mem _ h1)))

/-! ## Termination -/

theorem importLoop_ok {n : Nat} (IsStandPkg : String → Bool) (callDeep : Int) (h : Heap n)
    (self : List (Fin n) → Fin n → Int → Except Halt (WalkResult n)) (k : Nat)
    (hself : SelfOk h self k) (lpn : dotNode) (deep : Int) :
    ∀ (imps : List (String × Fin n)) (st : LoopState n), unseen st.seen ≤ k →
      ∃ st', importLoop IsStandPkg callDeep h self lpn deep imps st = .ok st' ∧
        st.seen ⊆ st'.seen := by
  intro imps
  induction imps with
  | nil => intro st _; exact ⟨st, rfl, fun _ hx => hx⟩
  | cons e rest ih =>
    obtain ⟨name, p⟩ := e
    intro st hst
    simp only [importLoop]
    split_ifs with h1 h2 h3
    · exact ih st hst
    · exact ih st hst
    · have hlt := unseen_cons_lt h2
      obtain ⟨st', e1, e2⟩ := ih { st with seen := p :: st.seen } (by simp only; omega)
      exact ⟨st', e1, fun x hx => e2 (List.mem_cons_of_mem _ hx)⟩
    · have hlt := unseen_cons_lt h2
      obtain ⟨r, er, hsub, hn⟩ := hself (p :: st.seen) p (addInt deep 1) (by omega)
      simp only [er, hn]
      have hle : unseen r.seen ≤ k := le_trans (unseen_mono hsub) (by omega)
      obtain ⟨st', e1, e2⟩ := ih
        { clusters := mapSet st.clusters name r.cluster
          edges :=
            st.edges ++ [{ From := lpn, To := pkgToNode (h p), Attrs := edgeAttrs }] ++ r.edges
          seen := r.seen } hle
      exact ⟨st', e1, fun x hx => e2 (hsub (List.mem_cons_of_mem _ hx))⟩

theorem doPkgFuel_ok {n : Nat} (IsStandPkg : String → Bool) (callDeep : Int) (h : Heap n) :
    ∀ fuel, SelfOk h (doPkgFuel IsStandPkg callDeep h fuel) fuel := by
  intro fuel
  induction fuel with
  | zero => intro seen p d hlt; omega
  | succ fuel ih =>
    intro seen p d hlt
    obtain ⟨st', e1, e2⟩ := importLoop_ok IsStandPkg callDeep h _ fuel ih (pkgToNode (h p)) d
      (h p).Imports
      { clusters := (NewDotCluster (h p).PkgPath).Clusters, edges := [], seen := seen }
      (by simp only; omega)
    simp only [doPkgFuel, e1]
    exact ⟨_, rfl, e2, rfl⟩

theorem importLoop_self_mono {n : Nat} (IsStandPkg : String → Bool) (callDeep : Int) (h : Heap n)
    (self self' : List (Fin n) → Fin n → Int → Except Halt (WalkResult n))
    (hmono : ∀ s p d r, self s p d = .ok r → self' s p d = .ok r) (lpn : dotNode) (deep : Int) :
    ∀ (imps : List (String × Fin n)) (st st' : LoopState n),
      importLoop IsStandPkg callDeep h self lpn deep imps st = .ok st' →
      importLoop IsStandPkg callDeep h self' lpn deep imps st = .ok st' := by
  intro imps
  induction imps with
  | nil => intro st st' hst; exact hst
  | cons e rest ih =>
    obtain ⟨name, p⟩ := e
    intro st st'
    simp only [importLoop]
    split_ifs with h1 h2 h3
    · exact ih st st'
    · exact ih st st'
    · exact ih _ st'
    · cases hs : self (p :: st.seen) p (addInt deep 1) with
      | error e => simp
      | ok r =>
        simp only [hmono _ _ _ _ hs]
        cases hn : r.nodes with
        | nil => simp
        | cons n0 ns => exact ih _ st'

theorem doPkgFuel_succ {n : Nat} (IsStandPkg : String → Bool) (callDeep : Int) (h : Heap n) :
    ∀ fuel s p d r, doPkgFuel IsStandPkg callDeep h fuel s p d = .ok r →
      doPkgFuel IsStandPkg callDeep h (fuel + 1) s p d = .ok r := by
  intro fuel
  induction fuel with
  | zero => intro s p d r hr; simp [doPkgFuel] at hr
  | succ fuel ih =>
    intro s p d r
    rw [doPkgFuel, doPkgFuel]
    cases hl : importLoop IsStandPkg callDeep h (doPkgFuel IsStandPkg callDeep h fuel)
        (pkgToNode (h p)) d
        (h p).Imports
        { clusters := (NewDotCluster (h p).PkgPath).Clusters, edges := [], seen := s } with
    | error e => simp
    | ok st =>
      rw [importLoop_self_mono IsStandPkg callDeep h _ _ ih _ _ _ _ _ hl]
      exact id

theorem doPkgFuel_le {n : Nat} (IsStandPkg : String → Bool) (callDeep : Int) (h : Heap n)
    {fuel fuel' : Nat} (hle : fuel ≤ fuel') (s : List (Fin n)) (p : Fin n) (d : Int)
    (r : WalkResult n) (hr : doPkgFuel IsStandPkg callDeep h fuel s p d = .ok r) :
    doPkgFuel IsStandPkg callDeep h fuel' s p d = .ok r := by
  induction hle with
  | refl => exact hr
  | step _ ih => exact doPkgFuel_succ IsStandPkg callDeep h _ s p d r ih

theorem importLoop_onlyFresh {n : Nat} (IsStandPkg : String → Bool) (callDeep : Int) (h : Heap n)
    (self : List (Fin n) → Fin n → Int → Except Halt (WalkResult n))
    (lpn : dotNode) (deep : Int) :
    ∀ (imps : List (String × Fin n)) (st : LoopState n),
      importLoop IsStandPkg callDeep h (onlyFresh self) lpn deep imps st =
        importLoop IsStandPkg callDeep h self lpn deep imps st := by
  intro imps
  induction imps with
  | nil => intro st; rfl
  | cons e rest ih =>
    obtain ⟨name, p⟩ := e
    intro st
    simp only [importLoop]
    split_ifs with h1 h2 h3
    · exact ih st
    · exact ih st
    · exact ih _
    · simp only [onlyFresh, h2, not_false_eq_true, and_self, if_true, ih]

/-- The walk always returns (the form of termination the other theorems use). -/
theorem doPkg_returns {n : Nat} (IsStandPkg : String → Bool) (callDeep : Int) (h : Heap n)
    (seen : List (Fin n)) (pkg : Fin n) (deep : Int) :
    ∃ r : WalkResult n, doPkg IsStandPkg callDeep h seen pkg deep = .ok r := by
  obtain ⟨r, hr, _, _⟩ := doPkgFuel_ok IsStandPkg callDeep h (n + 1) seen pkg deep
    (Nat.lt_succ_of_le (unseen_le seen))
  exact ⟨r, hr⟩

/-- C1: for every heap of `n` packages (import cycles allowed), every classifier,
every depth limit, every initial seen set and every starting depth, the walk
`doPkg(pkg, deep)` returns: there is one result that every run with a recursion
budget above the number of unseen packages produces (in particular `doPkg`),
the seen set it leaves contains the initial one, and the loop only ever calls
itself on a package that was unseen and has just been added to the seen set. -/
theorem doPkg_terminates {n : Nat} (IsStandPkg : String → Bool) (callDeep : Int) (h : Heap n)
    (seen : List (Fin n)) (pkg : Fin n) (deep : Int) :
    (∃ r : WalkResult n,
      (∀ fuel, unseen seen < fuel → doPkgFuel IsStandPkg callDeep h fuel seen pkg deep = .ok r) ∧
      doPkg IsStandPkg callDeep h seen pkg deep = .ok r ∧
      seen ⊆ r.seen) ∧
    (∀ self lpn imps st,
      importLoop IsStandPkg callDeep h (onlyFresh self) lpn deep imps st =
        importLoop IsStandPkg callDeep h self lpn deep imps st) := by
  obtain ⟨r, hr, hsub, _⟩ := doPkgFuel_ok IsStandPkg callDeep h (unseen seen + 1) seen pkg deep
    (Nat.lt_succ_self _)
  have hall : ∀ fuel, unseen seen < fuel →
      doPkgFuel IsStandPkg callDeep h fuel seen pkg deep = .ok r :=
    fun fuel hf => doPkgFuel_le IsStandPkg callDeep h hf seen pkg deep r hr
  exact ⟨⟨r, hall, hall (n + 1) (Nat.lt_succ_of_le (unseen_le seen)), hsub⟩,
    fun self lpn imps st => importLoop_onlyFresh IsStandPkg callDeep h self lpn deep imps st⟩

/-! ## Visited once -/

/-- C2, the code at the failing input: root `A` imports `B` and `B` imports `A`
back, seen set empty. The root is never put into the seen set, so it is walked a
second time below `B`: two clusters of the returned tree have ID `A`, and the
node of `A` occurs twice in the result (in the returned node list and in the node
set of the inner cluster). -/
theorem doPkg_root_walked_twice :
    ∃ r, doPkg (fun _ => false) 3 cycleHeap [] 0 0 = .ok r ∧
      (r.cluster.subclusters.map (fun c => c.ID)).count "A" = 2 ∧
      ((r.nodes ++ r.cluster.allNodes).map (fun nd => nd.ID)).count "A" = 2 ∧
      (r.nodes ++ r.cluster.allNodes).count (pkgToNode (cycleHeap 0)) = 2 :=
  ⟨_, rfl, by decide, by decide, by decide⟩

/-! ## Depth bound -/

theorem importLoop_depth {n : Nat} (IsStandPkg : String → Bool) (N : Int) (h : Heap n)
    (self : List (Fin n) → Fin n → Int → Except Halt (WalkResult n))
    (hN : N < 2 ^ 63)
    (hself : ∀ s q d r, 0 ≤ d → d < N → self s q d = .ok r → (r.cluster.depth : Int) + d ≤ N)
    (lpn : dotNode) (deep : Int) (h0 : 0 ≤ deep) (h1 : deep < N)
    (imps : List (String × Fin n)) (st st' : LoopState n)
    (hst : (depthOfMap st.clusters : Int) + deep + 1 ≤ N)
    (hr : importLoop IsStandPkg N h self lpn deep imps st = .ok st') :
    (depthOfMap st'.clusters : Int) + deep + 1 ≤ N := by
  refine importLoop_induct IsStandPkg N h self lpn deep
    (fun _ st => (depthOfMap st.clusters : Int) + deep + 1 ≤ N)
    (fun _ _ _ _ hi _ => hi) (fun _ _ _ _ hi _ _ _ => hi) ?_ imps st st' hst hr
  intro name p rest st r n0 ns hi _ _ hne hs _
  have hadd : addInt deep 1 = deep + 1 := addInt_of_range (by omega) (by omega)
  rw [hadd] at hne hs
  have hd := hself _ _ _ _ (by omega) (by omega) hs
  have hm := depthOfMap_mapSet_le st.clusters name r.cluster
  simp only
  omega

theorem doPkgFuel_depth {n : Nat} (IsStandPkg : String → Bool) (N : Int) (h : Heap n)
    (hN : N < 2 ^ 63) :
    ∀ fuel s p d r, 0 ≤ d → d < N → doPkgFuel IsStandPkg N h fuel s p d = .ok r →
      (r.cluster.depth : Int) + d ≤ N := by
  intro fuel
  induction fuel with
  | zero => intro s p d r _ _ hr; simp [doPkgFuel] at hr
  | succ fuel ih =>
    intro s p d r h0 h1 hr
    obtain ⟨fuel0, st, hf, hst, rfl⟩ := doPkgFuel_ok_inv IsStandPkg N h _ s p d r hr
    obtain rfl : fuel0 = fuel := by omega
    have hl := importLoop_depth IsStandPkg N h _ hN ih (pkgToNode (h p)) d h0 h1 _ _ _
      (by simp only [depthOfMap]; omega) hst
    simp only [dotCluster.depth]
    push_cast
    omega

/-- C3 (as amended): for every depth limit `N` with `1 ≤ N` (and `N` a Go `int`),
every heap, classifier and initial seen set, `doPkg(root, 0)` returns a cluster
tree whose nesting depth (root cluster = 1) is at most `N`. -/
theorem doPkg_depth_le {n : Nat} (IsStandPkg : String → Bool) (N : Int) (h : Heap n)
    (seen : List (Fin n)) (root : Fin n) (h1 : 1 ≤ N) (hN : N < 2 ^ 63) :
    ∃ r, doPkg IsStandPkg N h seen root 0 = .ok r ∧ (r.cluster.depth : Int) ≤ N := by
  obtain ⟨r, hr⟩ := doPkg_returns IsStandPkg N h seen root 0
  have hd := doPkgFuel_depth IsStandPkg N h hN _ _ _ _ _ (le_refl 0) (by omega) hr
  exact ⟨r, hr, by omega⟩

/-- C3, witness of `doPkg_depth_le`: the chain of five packages with depth limit 3. -/
theorem doPkg_depth_le_witness :
    (1 : Int) ≤ 3 ∧ (3 : Int) < 2 ^ 63 ∧
    ∃ r, doPkg (fun _ => false) 3 chainHeap [] 0 0 = .ok r ∧ (r.cluster.depth : Int) ≤ 3 :=
  ⟨by decide, by decide,
    doPkg_depth_le (fun _ => false) 3 chainHeap [] 0 (by decide) (by decide)⟩

/-- C3, counterexample to the claim as stated: with depth limit 0 the walk of a
package that imports nothing returns a cluster tree of nesting depth 1, which
exceeds the limit. -/
theorem doPkg_depth_limit_zero :
    ∃ r, doPkg (fun _ => false) 0 loneHeap [] 0 0 = .ok r ∧
      ¬ ((r.cluster.depth : Int) ≤ 0) :=
  ⟨_, rfl, by decide⟩

/-! ## Standard packages -/

theorem importLoop_ids {n : Nat} (IsStandPkg : String → Bool) (callDeep : Int) (h : Heap n)
    (P : String → Prop)
    (self : List (Fin n) → Fin n → Int → Except Halt (WalkResult n))
    (hself : ∀ s q d r, IsStandPkg (h q).PkgPath = false → self s q d = .ok r → ResultIn P r)
    (lpn : dotNode) (hlpn : P lpn.ID) (deep : Int)
    (imps : List (String × Fin n)) (st st' : LoopState n) (hst : StateIn P st)
    (hr : importLoop IsStandPkg callDeep h self lpn deep imps st = .ok st') : StateIn P st' := by
  refine importLoop_induct IsStandPkg callDeep h self lpn deep (fun _ st => StateIn P st)
    (fun _ _ _ _ hi _ => hi) (fun _ _ _ _ hi _ _ _ => hi) ?_ imps st st' hst hr
  intro name p rest st r n0 ns hi hstd _ _ hs hn
  obtain ⟨hc, hnd, he⟩ := hi
  obtain ⟨rc, rnd, re⟩ := hself _ _ _ _ hstd hs
  refine ⟨?_, ?_, ?_⟩
  · intro c hcm
    rcases mem_subclustersOfMap_mapSet hcm with h4 | h4
    · exact hc c h4
    · exact rc c h4
  · intro nd hndm
    rcases mem_allNodesOfMap_mapSet hndm with h4 | h4
    · exact hnd nd h4
    · exact rnd nd (List.mem_append_right _ h4)
  · intro e hem
    simp only [List.mem_append, List.mem_singleton] at hem
    rcases hem with (h4 | h4) | h4
    · exact he e h4
    · subst h4
      exact ⟨hlpn, rnd n0 (List.mem_append_left _ (by simp [hn]))⟩
    · exact re e h4

theorem doPkgFuel_ids {n : Nat} (IsStandPkg : String → Bool) (callDeep : Int) (h : Heap n)
    (P : String → Prop) (hP : ∀ q, IsStandPkg (h q).PkgPath = false → P (h q).PkgPath) :
    ∀ fuel s p d r, P (h p).PkgPath → doPkgFuel IsStandPkg callDeep h fuel s p d = .ok r →
      ResultIn P r := by
  intro fuel
  induction fuel with
  | zero => intro s p d r _ hr; simp [doPkgFuel] at hr
  | succ fuel ih =>
    intro s p d r hp hr
    obtain ⟨fuel0, st, hf, hst, rfl⟩ := doPkgFuel_ok_inv IsStandPkg callDeep h _ s p d r hr
    obtain rfl : fuel0 = fuel := by omega
    have hin := importLoop_ids IsStandPkg callDeep h P _
      (fun s q d r hq hr => ih s q d r (hP q hq) hr) (pkgToNode (h p)) hp d _ _ _
      ⟨by simp [subclustersOfMap], by simp [allNodesOfMap], by simp⟩ hst
    obtain ⟨hc, hnd, he⟩ := hin
    refine ⟨?_, ?_, he⟩
    · intro c hcm
      simp only [dotCluster.subclusters, List.mem_cons] at hcm
      rcases hcm with h4 | h4
      · subst h4; exact hp
      · exact hc c h4
    · intro nd hndm
      simp only [dotCluster.allNodes, List.mem_append, List.mem_singleton] at hndm
      rcases hndm with h4 | h4 | h4
      · subst h4; exact hp
      · split_ifs at h4 with h5
        · simp only [List.mem_singleton] at h4; subst h4; exact hp
        · simp at h4
      · exact hnd nd h4

/-- C4 (as amended): for every traversal `doPkg(root, 0)` and every identity `s`
that the classifier marks standard and that is not the root's own `PkgPath`,
`s` does not appear in the result: no cluster of the returned tree has it as ID,
no node of the returned list or of a cluster's node set has it as ID, and no
returned edge has it as the ID of `From` or `To`. -/
theorem doPkg_excludes_standard {n : Nat} (IsStandPkg : String → Bool) (callDeep : Int)
    (h : Heap n) (seen : List (Fin n)) (root : Fin n) (s : String)
    (hs : IsStandPkg s = true) (hroot : s ≠ (h root).PkgPath) :
    ∃ r, doPkg IsStandPkg callDeep h seen root 0 = .ok r ∧
      (∀ c ∈ r.cluster.subclusters, c.ID ≠ s) ∧
      (∀ nd ∈ r.nodes ++ r.cluster.allNodes, nd.ID ≠ s) ∧
      (∀ e ∈ r.edges, e.From.ID ≠ s ∧ e.To.ID ≠ s) := by
  obtain ⟨r, hr⟩ := doPkg_returns IsStandPkg callDeep h seen root 0
  have hP : ∀ q, IsStandPkg (h q).PkgPath = false → (h q).PkgPath ≠ s := by
    intro q hq heq
    rw [heq, hs] at hq
    exact absurd hq (by decide)
  exact ⟨r, hr, doPkgFuel_ids IsStandPkg callDeep h (fun x => x ≠ s) hP _ _ _ _ _
    (fun heq => hroot heq.symm) hr⟩

/-- C4, witness of `doPkg_excludes_standard`: a unit importing standard `fmt` and
non-standard `mypkg`; `fmt` is absent from the result. -/
theorem doPkg_excludes_standard_witness :
    fmtIsStd "fmt" = true ∧ "fmt" ≠ (fmtHeap 0).PkgPath ∧
    ∃ r, doPkg fmtIsStd 3 fmtHeap [] 0 0 = .ok r ∧
      (∀ c ∈ r.cluster.subclusters, c.ID ≠ "fmt") ∧
      (∀ nd ∈ r.nodes ++ r.cluster.allNodes, nd.ID ≠ "fmt") ∧
      (∀ e ∈ r.edges, e.From.ID ≠ "fmt" ∧ e.To.ID ≠ "fmt") :=
  ⟨by decide, by decide,
    doPkg_excludes_standard fmtIsStd 3 fmtHeap [] 0 "fmt" (by decide) (by decide)⟩

/-- C4, counterexample to the claim as stated: the root is the standard package
`fmt`, and the non-standard `mypkg` it imports imports `fmt` back. That import is
classified standard, yet `fmt` is the ID of the root cluster, of the node in the
returned node list, and of the `From` end of the returned edge. -/
theorem doPkg_standard_root_appears :
    ∃ r, doPkg fmtIsStd 3 stdRootHeap [] 0 0 = .ok r ∧
      ("fmt", (0 : Fin 2)) ∈ (stdRootHeap 1).Imports ∧
      fmtIsStd (stdRootHeap 0).PkgPath = true ∧
      (∃ c ∈ r.cluster.subclusters, c.ID = "fmt") ∧
      (∃ nd ∈ r.nodes, nd.ID = "fmt") ∧
      (∃ e ∈ r.edges, e.From.ID = "fmt") :=
  ⟨_, rfl, by decide, by decide, ⟨_, List.mem_cons_self _ _, rfl⟩,
    ⟨_, List.mem_cons_self _ _, rfl⟩, ⟨_, List.mem_cons_self _ _, rfl⟩⟩

/-! ## The diamond -/

/-- C5 (as amended): in a diamond (the root imports `B` and `C`, both import `D`; no
unit standard, seen set empty, depth limit at least 3; the paths of `B` and `C`
differ and the path of `D` differs from the other three), for both iteration
orders of the root's import map, `doPkg(A, 0)` returns a result with exactly one
node for `D` and exactly one edge whose `To` is `D`: its `From` is whichever of
`B` and `C` the loop reaches first. -/
theorem doPkg_diamond (IsStandPkg : String → Bool) (N : Int) (pa pb pc pd : String) (swap : Bool)
    (hstd : ∀ p, IsStandPkg (diamondHeap pa pb pc pd swap p).PkgPath = false) (hN : 3 ≤ N)
    (hbc : pb ≠ pc) (had : pa ≠ pd) (hbd : pb ≠ pd) (hcd : pc ≠ pd) :
    ∃ r, doPkg IsStandPkg N (diamondHeap pa pb pc pd swap) [] 0 0 = .ok r ∧
      ((r.nodes ++ r.cluster.allNodes).filter (fun nd => nd.ID = pd)).length = 1 ∧
      (r.edges.filter (fun e => e.To.ID = pd)).map (fun e => e.From.ID) =
        [if swap then pc else pb] := by
  have h1 : ¬ ((1 : Int) = N) := by omega
  have h2 : ¬ ((2 : Int) = N) := by omega
  have hA := hstd 0
  have hB := hstd 1
  have hC := hstd 2
  have hD := hstd 3
  have hcb : pc ≠ pb := fun h => hbc h.symm
  cases swap
  · simp [diamondHeap, mkPkg] at hA hB hC hD
    simp [doPkg, doPkgFuel, importLoop, diamondHeap, mkPkg, hA, hB, hC, hD, addInt_zero_one,
        addInt_one_one, h1, h2, mapSet, hbc, dotCluster.allNodes, allNodesOfMap, pkgToNode,
        List.filter_cons, had, hbd, hcd, NewDotCluster, dotCluster.Clusters]
  · simp [diamondHeap, mkPkg] at hA hB hC hD
    simp [doPkg, doPkgFuel, importLoop, diamondHeap, mkPkg, hA, hB, hC, hD, addInt_zero_one,
        addInt_one_one, h1, h2, mapSet, hcb, dotCluster.allNodes, allNodesOfMap, pkgToNode,
        List.filter_cons, had, hbd, hcd, NewDotCluster, dotCluster.Clusters]

/-- C5, witness of `doPkg_diamond`: the diamond `A`, `B`, `C`, `D` with depth limit 5
and `C` iterated before `B`. -/
theorem doPkg_diamond_witness :
    (∀ p, (fun _ => false) (diamondHeap "A" "B" "C" "D" true p).PkgPath = false) ∧
    (3 : Int) ≤ 5 ∧ "B" ≠ "C" ∧ "A" ≠ "D" ∧ "B" ≠ "D" ∧ "C" ≠ "D" ∧
    ∃ r, doPkg (fun _ => false) 5 (diamondHeap "A" "B" "C" "D" true) [] 0 0 = .ok r ∧
      ((r.nodes ++ r.cluster.allNodes).filter (fun nd => nd.ID = "D")).length = 1 ∧
      (r.edges.filter (fun e => e.To.ID = "D")).map (fun e => e.From.ID) =
        [if true then "C" else "B"] :=
  ⟨fun _ => rfl, by decide, by decide, by decide, by decide, by decide,
    doPkg_diamond (fun _ => false) 5 "A" "B" "C" "D" true (fun _ => rfl) (by decide)
      (by decide) (by decide) (by decide) (by decide)⟩

/-- C5, counterexample to the claim as stated: in the diamond with depth limit 3
and `B` iterated before `C`, exactly one returned edge points to `D`, not two. -/
theorem doPkg_diamond_not_two_edges :
    ∃ r, doPkg (fun _ => false) 3 (diamondHeap "A" "B" "C" "D" false) [] 0 0 = .ok r ∧
      (r.edges.filter (fun e => e.To.ID = "D")).length ≠ 2 :=
  ⟨_, rfl, by decide⟩

/-! ## Own node -/

theorem importLoop_no_panic {n : Nat} (IsStandPkg : String → Bool) (callDeep : Int) (h : Heap n)
    (self : List (Fin n) → Fin n → Int → Except Halt (WalkResult n))
    (hself : ∀ s q d, self s q d ≠ .error .indexOutOfRange)
    (hnodes : ∀ s q d r, self s q d = .ok r → r.nodes ≠ [])
    (lpn : dotNode) (deep : Int) :
    ∀ (imps : List (String × Fin n)) (st : LoopState n),
      importLoop IsStandPkg callDeep h self lpn deep imps st ≠ .error .indexOutOfRange := by
  intro imps
  induction imps with
  | nil => intro st; simp [importLoop]
  | cons e rest ih =>
    obtain ⟨name, p⟩ := e
    intro st
    simp only [importLoop]
    split_ifs with h1 h2 h3
    · exact ih st
    · exact ih st
    · exact ih _
    · cases hs : self (p :: st.seen) p (addInt deep 1) with
      | error e =>
        intro he
        simp only [Except.error.injEq] at he
        exact hself _ _ _ (he ▸ hs)
      | ok r =>
        cases hn : r.nodes with
        | nil => exact absurd hn (hnodes _ _ _ _ hs)
        | cons n0 ns => simp only [hn]; exact ih _

theorem doPkgFuel_no_panic {n : Nat} (IsStandPkg : String → Bool) (callDeep : Int) (h : Heap n) :
    ∀ fuel s p d, doPkgFuel IsStandPkg callDeep h fuel s p d ≠ .error .indexOutOfRange := by
  intro fuel
  induction fuel with
  | zero => intro s p d; simp [doPkgFuel]
  | succ fuel ih =>
    intro s p d
    have hl := importLoop_no_panic IsStandPkg callDeep h _ ih
      (fun s q d r hr => by rw [(doPkgFuel_shape IsStandPkg callDeep h fuel s q d r hr).1]; simp)
      (pkgToNode (h p)) d (h p).Imports
      { clusters := (NewDotCluster (h p).PkgPath).Clusters, edges := [], seen := s }
    simp only [doPkgFuel]
    split
    · rename_i e he
      intro hc
      simp only [Except.error.injEq] at hc
      exact hl (hc ▸ he)
    · simp

/-- C6: every call `doPkg(pkg, deep)` returns; the returned node list is non-empty
and its element 0 is the node of `pkg` (ID = `PkgPath`, label = `Name`); no run,
whatever its recursion budget, stops on the index expression `n[0]`; when
`deep > 0` that node is in the returned cluster's `Nodes`; when `deep = 0` the
returned cluster's `Nodes` is empty and the node is in the returned node list. -/
theorem doPkg_own_node {n : Nat} (IsStandPkg : String → Bool) (callDeep : Int) (h : Heap n)
    (seen : List (Fin n)) (pkg : Fin n) (deep : Int) :
    (∃ r, doPkg IsStandPkg callDeep h seen pkg deep = .ok r ∧
      r.nodes ≠ [] ∧
      r.nodes.head? = some (pkgToNode (h pkg)) ∧
      (pkgToNode (h pkg)).ID = (h pkg).PkgPath ∧
      (pkgToNode (h pkg)).Attrs.lookup "label" = some (h pkg).Name ∧
      (deep > 0 → pkgToNode (h pkg) ∈ r.cluster.Nodes) ∧
      (deep = 0 → r.cluster.Nodes = [] ∧ pkgToNode (h pkg) ∈ r.nodes)) ∧
    (∀ fuel s p d, doPkgFuel IsStandPkg callDeep h fuel s p d ≠ .error .indexOutOfRange) := by
  refine ⟨?_, doPkgFuel_no_panic IsStandPkg callDeep h⟩
  obtain ⟨r, hr⟩ := doPkg_returns IsStandPkg callDeep h seen pkg deep
  obtain ⟨hn, hc, _, _⟩ := doPkgFuel_shape IsStandPkg callDeep h _ seen pkg deep r hr
  refine ⟨r, hr, by simp [hn], by simp [hn], rfl, rfl, ?_, ?_⟩
  · intro hd
    simp [hc, hd]
  · intro hd
    simp [hc, hd, hn]

/-! ## Edges and their end nodes -/

theorem doPkgFuel_anchored {n : Nat} (IsStandPkg : String → Bool) (callDeep : Int) (h : Heap n)
    (hk : UniqueKeys h) :
    ∀ fuel s p (d : Int) r, 0 ≤ d → d + unseen s < 2 ^ 63 →
      doPkgFuel IsStandPkg callDeep h fuel s p d = .ok r →
      Anchored (pkgToNode (h p)) r.cluster.Clusters r.edges := by
  intro fuel
  induction fuel with
  | zero => intro s p d r _ _ hr; simp [doPkgFuel] at hr
  | succ fuel ih =>
    intro s p d r h0 hb hr
    obtain ⟨fuel0, st, hf, hst, rfl⟩ := doPkgFuel_ok_inv IsStandPkg callDeep h _ s p d r hr
    obtain rfl : fuel0 = fuel := by omega
    have hinv := importLoop_induct IsStandPkg callDeep h _ (pkgToNode (h p)) d
      (AnchorInv (pkgToNode (h p)) d)
      ?_ ?_ ?_ (h p).Imports { clusters := [], edges := [], seen := s } st
      ⟨hk p, by simp, hb, by simp [Anchored]⟩ hst
    · exact hinv.2.2.2
    · intro name q rest st0 hi _
      obtain ⟨hnd, hkeys, hbd, ha⟩ := hi
      rw [List.map_cons, List.nodup_cons] at hnd
      exact ⟨hnd.2, fun k hkm hkr => hkeys k hkm (List.mem_cons_of_mem _ hkr), hbd, ha⟩
    · intro name q rest st0 hi _ hq _
      obtain ⟨hnd, hkeys, hbd, ha⟩ := hi
      rw [List.map_cons, List.nodup_cons] at hnd
      have := unseen_cons_lt hq
      exact ⟨hnd.2, fun k hkm hkr => hkeys k hkm (List.mem_cons_of_mem _ hkr),
        by simp only; omega, ha⟩
    · intro name q rest st0 r n0 ns hi _ hq _ hs hn
      obtain ⟨hnd, hkeys, hbd, ha⟩ := hi
      rw [List.map_cons, List.nodup_cons] at hnd
      have hadd : addInt d 1 = d + 1 := addInt_succ_of_unseen h0 hq hbd
      rw [hadd] at hs
      have hlt := unseen_cons_lt hq
      have hra := ih _ _ _ _ (by omega) (by omega) hs
      obtain ⟨hrn, hrc, _, _⟩ := doPkgFuel_shape IsStandPkg callDeep h _ _ _ _ _ hs
      have hsub := doPkgFuel_seen_subset IsStandPkg callDeep h _ _ _ _ _ hs
      have hmono := unseen_mono hsub
      have hname : name ∉ st0.clusters.map Prod.fst :=
        fun hm => hkeys name hm (by simp)
      have hn0 : n0 = pkgToNode (h q) := by
        rw [hrn] at hn
        simp only [List.cons.injEq] at hn
        exact hn.1.symm
      have hown : pkgToNode (h q) ∈ r.cluster.allNodes := by
        cases hc : r.cluster with
        | mk i cs nds a =>
          rw [hc] at hrc
          simp only [dotCluster.Nodes] at hrc
          rw [if_pos (by omega)] at hrc
          simp [dotCluster.allNodes, hrc]
      have hin : ∀ x, x ∈ allNodesOfMap r.cluster.Clusters → x ∈ r.cluster.allNodes := by
        intro x hx
        cases hc : r.cluster with
        | mk i cs nds a =>
          rw [hc] at hx
          simp only [dotCluster.Clusters] at hx
          simp [dotCluster.allNodes, hx]
      refine ⟨hnd.2, ?_, by simp only; omega, ?_⟩
      · intro k hkm hkr
        simp only [mapSet_of_not_mem _ _ _ hname, List.map_append, List.mem_append,
          List.map_cons, List.map_nil, List.mem_singleton] at hkm
        rcases hkm with hkm | hkm
        · exact hkeys k hkm (List.mem_cons_of_mem _ hkr)
        · subst hkm; exact hnd.1 hkr
      · intro e he
        simp only [mapSet_of_not_mem _ _ _ hname, allNodesOfMap_append, allNodesOfMap,
          List.append_nil, List.mem_append, List.mem_singleton] at he ⊢
        rcases he with (he | he) | he
        · obtain ⟨h1, h2⟩ := ha e he
          exact ⟨h1.imp id Or.inl, Or.inl h2⟩
        · subst he
          exact ⟨Or.inl rfl, Or.inr (hn0 ▸ hown)⟩
        · obtain ⟨h1, h2⟩ := hra e he
          refine ⟨Or.inr (Or.inr ?_), Or.inr (hin _ h2)⟩
          rcases h1 with h1 | h1
          · rw [h1]; exact hown
          · exact hin _ h1

/-- C7: for every heap of fewer than `2 ^ 63` packages whose import maps have no
repeated key, and every root without load errors, `convertToDot` assembles a
graph in which the `From` node and the `To` node of every edge (the node
itself, so also its identity) occur in the graph's node list or in the node set
of a cluster reachable from the root cluster. -/
theorem convertToDot_edges_have_nodes {n : Nat} (minlen : Nat)
    (fmtErrors : List String → String) (IsStandPkg : String → Bool) (callDeep : Int)
    (h : Heap n) (seen : List (Fin n)) (root : Fin n) (rest : List (Fin n))
    (hk : UniqueKeys h) (hn : (n : Int) < 2 ^ 63) (he : (h root).Errors = none) :
    ∃ g s', convertToDotGraph minlen fmtErrors IsStandPkg callDeep h seen (root :: rest) =
        .ok (.ok g, s') ∧
      ∀ e ∈ g.Edges,
        e.From ∈ g.Nodes ++ g.Cluster.allNodes ∧ e.To ∈ g.Nodes ++ g.Cluster.allNodes := by
  obtain ⟨r, hr⟩ := doPkg_returns IsStandPkg callDeep h seen root 0
  have hr' := hr
  unfold doPkg at hr'
  refine ⟨graphOf minlen (h root).PkgPath r, r.seen, ?_, ?_⟩
  · simp only [convertToDotGraph, convertToDot, convertToDotFuel, he, hr']
  · have hu := unseen_le seen
    have ha := doPkgFuel_anchored IsStandPkg callDeep h hk _ _ _ _ _ (le_refl 0) (by omega) hr
    obtain ⟨hrn, _, _, _⟩ := doPkgFuel_shape IsStandPkg callDeep h _ _ _ _ _ hr
    intro e hem
    obtain ⟨h1, h2⟩ := ha e hem
    have hin : ∀ x, x ∈ allNodesOfMap r.cluster.Clusters → x ∈ r.cluster.allNodes := by
      intro x hx
      cases hc : r.cluster with
      | mk i cs nds a =>
        rw [hc] at hx
        simp only [dotCluster.Clusters] at hx
        simp [dotCluster.allNodes, hx]
    simp only [graphOf, List.mem_append, hrn, List.mem_singleton]
    exact ⟨h1.imp id (hin _), Or.inr (hin _ h2)⟩

/-- C7, witness of `convertToDot_edges_have_nodes`: root `A` imports `B`, which
imports `A` back. -/
theorem convertToDot_edges_have_nodes_witness :
    UniqueKeys cycleHeap ∧ ((2 : Nat) : Int) < 2 ^ 63 ∧ (cycleHeap 0).Errors = none ∧
    ∃ g s', convertToDotGraph 2 (fun _ => "") (fun _ => false) 3 cycleHeap [] [0] =
        .ok (.ok g, s') ∧
      ∀ e ∈ g.Edges,
        e.From ∈ g.Nodes ++ g.Cluster.allNodes ∧ e.To ∈ g.Nodes ++ g.Cluster.allNodes :=
  ⟨by unfold UniqueKeys; decide, by decide, rfl,
    convertToDot_edges_have_nodes 2 (fun _ => "") (fun _ => false) 3 cycleHeap [] 0 []
      (by unfold UniqueKeys; decide) (by decide) rfl⟩

/-! ## What the graph gathers -/

theorem doPkgFuel_ownNodes {n : Nat} (IsStandPkg : String → Bool) (callDeep : Int) (h : Heap n) :
    ∀ fuel s p (d : Int) r, 0 ≤ d → d + unseen s < 2 ^ 63 →
      doPkgFuel IsStandPkg callDeep h fuel s p d = .ok r → OwnNodes r.cluster.Clusters := by
  intro fuel
  induction fuel with
  | zero => intro s p d r _ _ hr; simp [doPkgFuel] at hr
  | succ fuel ih =>
    intro s p d r h0 hb hr
    obtain ⟨fuel0, st, hf, hst, rfl⟩ := doPkgFuel_ok_inv IsStandPkg callDeep h _ s p d r hr
    obtain rfl : fuel0 = fuel := by omega
    have hinv := importLoop_induct IsStandPkg callDeep h _ (pkgToNode (h p)) d (OwnNodesInv d)
      ?_ ?_ ?_ (h p).Imports { clusters := [], edges := [], seen := s } st
      ⟨hb, by simp [OwnNodes, subclustersOfMap]⟩ hst
    · exact hinv.2
    · intro name q rest st0 hi _
      exact hi
    · intro name q rest st0 hi _ hq _
      have := unseen_cons_lt hq
      exact ⟨by have := hi.1; simp only; omega, hi.2⟩
    · intro name q rest st0 r n0 ns hi _ hq _ hs hn
      obtain ⟨hbd, ho⟩ := hi
      have hadd : addInt d 1 = d + 1 := addInt_succ_of_unseen h0 hq hbd
      rw [hadd] at hs
      have hlt := unseen_cons_lt hq
      have hro := ih _ _ _ _ (by omega) (by omega) hs
      obtain ⟨_, hrc, hid, _⟩ := doPkgFuel_shape IsStandPkg callDeep h _ _ _ _ _ hs
      have hmono := unseen_mono (doPkgFuel_seen_subset IsStandPkg callDeep h _ _ _ _ _ hs)
      refine ⟨by simp only; omega, ?_⟩
      intro c hc
      rcases mem_subclustersOfMap_mapSet hc with h4 | h4
      · exact ho c h4
      · rw [subclusters_eq, List.mem_cons] at h4
        rcases h4 with h4 | h4
        · subst h4
          rw [if_pos (by omega)] at hrc
          exact ⟨pkgToNode (h q), by simp [hrc], by simp [hid, pkgToNode]⟩
        · exact hro c h4

theorem doPkgFuel_childEdges {n : Nat} (IsStandPkg : String → Bool) (callDeep : Int) (h : Heap n) :
    ∀ fuel s p (d : Int) r, doPkgFuel IsStandPkg callDeep h fuel s p d = .ok r →
      ChildEdges r.cluster.subclusters r.edges := by
  intro fuel
  induction fuel with
  | zero => intro s p d r hr; simp [doPkgFuel] at hr
  | succ fuel ih =>
    intro s p d r hr
    obtain ⟨fuel0, st, hf, hst, rfl⟩ := doPkgFuel_ok_inv IsStandPkg callDeep h _ s p d r hr
    obtain rfl : fuel0 = fuel := by omega
    have hinv := importLoop_induct IsStandPkg callDeep h _ (pkgToNode (h p)) d
      (ChildEdgesInv (pkgToNode (h p)))
      ?_ ?_ ?_ (h p).Imports { clusters := [], edges := [], seen := s } st
      ⟨by simp, by simp [ChildEdges, subclustersOfMap]⟩ hst
    · obtain ⟨h1, h2⟩ := hinv
      intro c hc kc hkc
      simp only [dotCluster.subclusters, List.mem_cons] at hc
      rcases hc with hc | hc
      · subst hc
        obtain ⟨e, he, hf, ht⟩ := h1 kc hkc
        exact ⟨e, he, by simp [hf, pkgToNode, dotCluster.ID], ht⟩
      · exact h2 c hc kc hkc
    · intro name q rest st0 hi _
      exact hi
    · intro name q rest st0 hi _ _ _
      exact hi
    · intro name q rest st0 r n0 ns hi _ _ _ hs hn
      obtain ⟨h1, h2⟩ := hi
      have hre := ih _ _ _ _ hs
      obtain ⟨hrn, _, hid, _⟩ := doPkgFuel_shape IsStandPkg callDeep h _ _ _ _ _ hs
      have hn0 : n0 = pkgToNode (h q) := by
        rw [hrn] at hn
        simp only [List.cons.injEq] at hn
        exact hn.1.symm
      refine ⟨?_, ?_⟩
      · intro kc hkc
        rcases mem_mapSet hkc with h4 | h4
        · obtain ⟨e, he, hf, ht⟩ := h1 kc h4
          exact ⟨e, by simp [he], hf, ht⟩
        · subst h4
          exact ⟨{ From := pkgToNode (h p), To := n0, Attrs := edgeAttrs }, by simp, rfl,
            by simp [hn0, hid, pkgToNode]⟩
      · intro c hc kc hkc
        rcases mem_subclustersOfMap_mapSet hc with h4 | h4
        · obtain ⟨e, he, hf, ht⟩ := h2 c h4 kc hkc
          exact ⟨e, by simp [he], hf, ht⟩
        · obtain ⟨e, he, hf, ht⟩ := hre c h4 kc hkc
          exact ⟨e, by simp [he], hf, ht⟩

/-- C8 (as amended): for every heap of fewer than `2 ^ 63` packages and every root
without load errors, the graph `convertToDot` assembles has as `Nodes` exactly
the root's node; every other cluster of the tree holds a node with its own ID in
its own node set; and `Edges` is gathered across the whole walk: for every
cluster of the tree and every child cluster attached to it there is an edge
from the cluster's ID to the child's ID. -/
theorem convertToDot_gathers {n : Nat} (minlen : Nat)
    (fmtErrors : List String → String) (IsStandPkg : String → Bool) (callDeep : Int)
    (h : Heap n) (seen : List (Fin n)) (root : Fin n) (rest : List (Fin n))
    (hn : (n : Int) < 2 ^ 63) (he : (h root).Errors = none) :
    ∃ g s', convertToDotGraph minlen fmtErrors IsStandPkg callDeep h seen (root :: rest) =
        .ok (.ok g, s') ∧
      g.Nodes = [pkgToNode (h root)] ∧
      (∀ c ∈ subclustersOfMap g.Cluster.Clusters, ∃ nd ∈ c.Nodes, nd.ID = c.ID) ∧
      (∀ c ∈ g.Cluster.subclusters, ∀ kc ∈ c.Clusters,
        ∃ e ∈ g.Edges, e.From.ID = c.ID ∧ e.To.ID = kc.2.ID) := by
  obtain ⟨r, hr⟩ := doPkg_returns IsStandPkg callDeep h seen root 0
  have hr' := hr
  unfold doPkg at hr'
  have hu := unseen_le seen
  refine ⟨graphOf minlen (h root).PkgPath r, r.seen, ?_, ?_, ?_, ?_⟩
  · simp only [convertToDotGraph, convertToDot, convertToDotFuel, he, hr']
  · exact (doPkgFuel_shape IsStandPkg callDeep h _ _ _ _ _ hr).1
  · exact doPkgFuel_ownNodes IsStandPkg callDeep h _ _ _ _ _ (le_refl 0) (by omega) hr
  · exact doPkgFuel_childEdges IsStandPkg callDeep h _ _ _ _ _ hr

/-- C8, witness of `convertToDot_gathers`: root `A` importing `B`. -/
theorem convertToDot_gathers_witness :
    ((2 : Nat) : Int) < 2 ^ 63 ∧ (pairHeap 0).Errors = none ∧
    ∃ g s', convertToDotGraph 2 (fun _ => "") (fun _ => false) 3 pairHeap [] [0] =
        .ok (.ok g, s') ∧
      g.Nodes = [pkgToNode (pairHeap 0)] ∧
      (∀ c ∈ subclustersOfMap g.Cluster.Clusters, ∃ nd ∈ c.Nodes, nd.ID = c.ID) ∧
      (∀ c ∈ g.Cluster.subclusters, ∀ kc ∈ c.Clusters,
        ∃ e ∈ g.Edges, e.From.ID = c.ID ∧ e.To.ID = kc.2.ID) :=
  ⟨by decide, rfl,
    convertToDot_gathers 2 (fun _ => "") (fun _ => false) 3 pairHeap [] 0 [] (by decide) rfl⟩

/-- C8, counterexample to the claim as stated: root `A` imports `B`; the walk visits
`B` and gives it a cluster, but the `Nodes` list of the graph holds no node for
`B`. -/
theorem convertToDot_nodes_not_flattened :
    ∃ g s', convertToDotGraph 2 (fun _ => "") (fun _ => false) 3 pairHeap [] [0] =
        .ok (.ok g, s') ∧
      (∃ c ∈ g.Cluster.subclusters, c.ID = "B") ∧
      ¬ ∃ nd ∈ g.Nodes, nd.ID = "B" :=
  ⟨_, _, rfl, by decide, by decide⟩

/-! ## Failures of `convertToDot` -/

theorem importLoop_congr_heap {n : Nat} (IsStandPkg : String → Bool) (callDeep : Int)
    (h h' : Heap n) (hh : SameButErrors h h')
    (self : List (Fin n) → Fin n → Int → Except Halt (WalkResult n))
    (lpn : dotNode) (deep : Int) :
    ∀ (imps : List (String × Fin n)) (st : LoopState n),
      importLoop IsStandPkg callDeep h' self lpn deep imps st =
        importLoop IsStandPkg callDeep h self lpn deep imps st := by
  intro imps
  induction imps with
  | nil => intro st; rfl
  | cons e rest ih =>
    obtain ⟨name, p⟩ := e
    intro st
    simp only [importLoop, (hh p).1, ih]

theorem doPkgFuel_congr_heap {n : Nat} (IsStandPkg : String → Bool) (callDeep : Int)
    (h h' : Heap n) (hh : SameButErrors h h') :
    ∀ fuel, doPkgFuel IsStandPkg callDeep h' fuel = doPkgFuel IsStandPkg callDeep h fuel := by
  intro fuel
  induction fuel with
  | zero => rfl
  | succ fuel ih =>
    funext s p d
    have hn : pkgToNode (h' p) = pkgToNode (h p) := by
      simp [pkgToNode, (hh p).1, (hh p).2.1]
    simp only [doPkgFuel, ih, importLoop_congr_heap IsStandPkg callDeep h h' hh, hn, (hh p).1,
      (hh p).2.2]

/-- C9: `convertToDot` fails without walking when the package list is empty or the
first package carries errors: whatever the recursion budget (even none, so a call
of `doPkg` would not return) the outcome is the error and the seen set is the one
it started with. When the first package has no errors, `doPkg` returns and the
outcome is whatever `WriteDot` makes of the assembled graph, and neither depends
on the `Errors` of any package. -/
theorem convertToDot_failures {n : Nat} {β : Type} (writeDot : dotGraph → Except String β)
    (minlen : Nat) (fmtErrors : List String → String) (IsStandPkg : String → Bool)
    (callDeep : Int) (h : Heap n) (seen : List (Fin n)) :
    (∀ fuel, convertToDotFuel writeDot minlen fmtErrors IsStandPkg callDeep h fuel seen [] =
      .ok (.error "no package found. ", seen)) ∧
    (∀ fuel root rest errs, (h root).Errors = some errs →
      convertToDotFuel writeDot minlen fmtErrors IsStandPkg callDeep h fuel seen (root :: rest) =
        .ok (.error ("get failed " ++ fmtErrors errs ++ ". "), seen)) ∧
    (∀ root rest, (h root).Errors = none →
      ∃ r, doPkg IsStandPkg callDeep h seen root 0 = .ok r ∧
        convertToDot writeDot minlen fmtErrors IsStandPkg callDeep h seen (root :: rest) =
          .ok (writeDot (graphOf minlen (h root).PkgPath r), r.seen)) ∧
    (∀ (h' : Heap n) root rest deep, SameButErrors h h' →
      doPkg IsStandPkg callDeep h' seen root deep = doPkg IsStandPkg callDeep h seen root deep ∧
      ((h root).Errors = none → (h' root).Errors = none →
        convertToDot writeDot minlen fmtErrors IsStandPkg callDeep h' seen (root :: rest) =
          convertToDot writeDot minlen fmtErrors IsStandPkg callDeep h seen (root :: rest))) := by
  refine ⟨fun _ => rfl, ?_, ?_, ?_⟩
  · intro fuel root rest errs he
    simp only [convertToDotFuel, he]
  · intro root rest he
    obtain ⟨r, hr⟩ := doPkg_returns IsStandPkg callDeep h seen root 0
    refine ⟨r, hr, ?_⟩
    unfold doPkg at hr
    simp only [convertToDot, convertToDotFuel, he, hr]
  · intro h' root rest deep hh
    have hd := doPkgFuel_congr_heap IsStandPkg callDeep h h' hh
    refine ⟨by simp only [doPkg, hd], ?_⟩
    intro he he'
    simp only [convertToDot, convertToDotFuel, he, he', hd, (hh root).1]

/-- An illustration: the walk of `A` reaches `B`, which carries a load error, and
`convertToDot` hands the full graph to the serializer all the same. -/
theorem convertToDot_import_with_errors :
    ∃ g s', convertToDotGraph 2 (fun _ => "") (fun _ => false) 3 pairHeapErr [] [0] =
        .ok (.ok g, s') ∧
      (pairHeapErr 1).Errors ≠ none ∧
      g.Cluster.Clusters.map Prod.fst = ["B"] ∧
      g.Edges.map (fun e => (e.From.ID, e.To.ID)) = [("A", "B")] :=
  ⟨_, _, rfl, by decide, rfl, rfl⟩

/-! ## Requests in a row -/

/-- Whatever the heap, the classifier, the depth limit and the seen set before, a
walk of a package that starts from the seen set an earlier walk of the same
package left behind finds every import standard or seen, and returns the bare
cluster of the package, no edge, and the seen set unchanged. -/
theorem doPkg_again_is_bare {n : Nat} (IsStandPkg : String → Bool) (callDeep : Int) (h : Heap n)
    (seen : List (Fin n)) (pkg : Fin n) (deep deep' : Int) :
    ∃ r1, doPkg IsStandPkg callDeep h seen pkg deep = .ok r1 ∧
      doPkg IsStandPkg callDeep h r1.seen pkg deep' =
        .ok { cluster := bareCluster (h pkg) deep'
              nodes := [pkgToNode (h pkg)]
              edges := []
              seen := r1.seen } := by
  obtain ⟨r1, hr1⟩ := doPkg_returns IsStandPkg callDeep h seen pkg deep
  refine ⟨r1, hr1, ?_⟩
  have hm := doPkgFuel_marks_imports IsStandPkg callDeep h _ _ _ _ _ hr1
  simp only [doPkg, doPkgFuel, NewDotCluster, dotCluster.Clusters]
  rw [importLoop_all_skipped IsStandPkg callDeep h _ _ _
    { clusters := [], edges := [], seen := r1.seen } _ hm]
  rfl

/-- The import loop on copies: when the recursive call on a copy returns what it
returns on the original, so does the loop, and the seen set grows only by
packages of `R`. -/
theorem importLoop_copy {n : Nat} (IsStandPkg : String → Bool) (callDeep : Int) (h : Heap n)
    (R : Fin n → Prop) (φ : Fin n → Fin n) (hc : CopyOn h R φ)
    (self self' : List (Fin n) → Fin n → Int → Except Halt (WalkResult n))
    (lpn : dotNode) (deep : Int)
    (hself : ∀ s t p r, R p → SeenAlike R φ s t → self s p (addInt deep 1) = .ok r →
      ∃ r', self' t (φ p) (addInt deep 1) = .ok r' ∧ r'.cluster = r.cluster ∧
        r'.nodes = r.nodes ∧ r'.edges = r.edges ∧ SeenAlike R φ r.seen r'.seen ∧
        ∀ q ∈ r.seen, q ∈ s ∨ R q) :
    ∀ (imps : List (String × Fin n)), (∀ e ∈ imps, R e.2) →
      ∀ (st st' out : LoopState n), st'.clusters = st.clusters → st'.edges = st.edges →
      SeenAlike R φ st.seen st'.seen →
      importLoop IsStandPkg callDeep h self lpn deep imps st = .ok out →
      ∃ out', importLoop IsStandPkg callDeep h self' lpn deep
          (imps.map (fun e => (e.1, φ e.2))) st' = .ok out' ∧
        out'.clusters = out.clusters ∧ out'.edges = out.edges ∧
        SeenAlike R φ out.seen out'.seen ∧ ∀ q ∈ out.seen, q ∈ st.seen ∨ R q := by
  intro imps
  induction imps with
  | nil =>
    intro _ st st' out h1 h2 h3 hr
    simp only [importLoop, Except.ok.injEq] at hr
    subst hr
    exact ⟨st', rfl, h1, h2, h3, fun q hq => Or.inl hq⟩
  | cons e rest ih =>
    obtain ⟨name, p⟩ := e
    intro hR st st' out h1 h2 h3
    have hp : R p := hR (name, p) (List.mem_cons_self _ _)
    have hrest : ∀ e ∈ rest, R e.2 := fun e he => hR e (List.mem_cons_of_mem _ he)
    have hpath : (h (φ p)).PkgPath = (h p).PkgPath := (hc.2.2 p hp).1
    have hmark : SeenAlike R φ (p :: st.seen) (φ p :: st'.seen) := by
      intro q hq
      simp only [List.mem_cons]
      constructor
      · rintro (rfl | hqs)
        · exact Or.inl rfl
        · exact Or.inr ((h3 q hq).1 hqs)
      · rintro (heq | hqs)
        · exact Or.inl (hc.2.1 q p hq hp heq)
        · exact Or.inr ((h3 q hq).2 hqs)
    simp only [importLoop, List.map_cons, hpath]
    by_cases hstd : IsStandPkg (h p).PkgPath = true
    · simp only [hstd, if_true]
      exact ih hrest st st' out h1 h2 h3
    · simp only [hstd, if_false]
      by_cases hseen : p ∈ st.seen
      · have hseen' : φ p ∈ st'.seen := (h3 p hp).1 hseen
        simp only [hseen, hseen', if_true]
        exact ih hrest st st' out h1 h2 h3
      · have hseen' : φ p ∉ st'.seen := fun hx => hseen ((h3 p hp).2 hx)
        simp only [hseen, hseen', if_false]
        by_cases hd : addInt deep 1 = callDeep
        · simp only [hd, if_true]
          intro hr
          obtain ⟨out', ho, hc1, hc2, hc3, hc4⟩ :=
            ih hrest { st with seen := p :: st.seen } { st' with seen := φ p :: st'.seen } out
              h1 h2 hmark hr
          refine ⟨out', ho, hc1, hc2, hc3, ?_⟩
          intro q hq
          rcases hc4 q hq with hq1 | hq1
          · rcases List.mem_cons.1 hq1 with rfl | hq2
            · exact Or.inr hp
            · exact Or.inl hq2
          · exact Or.inr hq1
        · simp only [hd, if_false]
          cases hs : self (p :: st.seen) p (addInt deep 1) with
          | error e => simp
          | ok r =>
            obtain ⟨r', hs', e1, e2, e3, e4, e5⟩ := hself _ _ p r hp hmark hs
            simp only [hs', e2]
            cases hn : r.nodes with
            | nil => simp
            | cons n0 ns =>
              simp only []
              intro hr
              obtain ⟨out', ho, hc1, hc2, hc3, hc4⟩ :=
                ih hrest _
                  { clusters := mapSet st'.clusters name r'.cluster
                    edges := st'.edges ++ [{ From := lpn, To := n0, Attrs := edgeAttrs }] ++
                      r'.edges
                    seen := r'.seen } out
                  (by simp only [h1, e1]) (by simp only [h2, e3]) e4 hr
              refine ⟨out', ho, hc1, hc2, hc3, ?_⟩
              intro q hq
              rcases hc4 q hq with hq1 | hq1
              · rcases e5 q hq1 with hq2 | hq2
                · rcases List.mem_cons.1 hq2 with rfl | hq3
                  · exact Or.inr hp
                  · exact Or.inl hq3
                · exact Or.inr hq2
              · exact Or.inr hq1

/-- The walk of a copy, from a seen set that holds the copies of the seen packages
of `R`, returns the cluster, nodes and edges of the walk of the original. -/
theorem doPkgFuel_copy {n : Nat} (IsStandPkg : String → Bool) (callDeep : Int) (h : Heap n)
    (R : Fin n → Prop) (φ : Fin n → Fin n) (hc : CopyOn h R φ) :
    ∀ fuel s t p (d : Int) r, R p → SeenAlike R φ s t →
      doPkgFuel IsStandPkg callDeep h fuel s p d = .ok r →
      ∃ r', doPkgFuel IsStandPkg callDeep h fuel t (φ p) d = .ok r' ∧
        r'.cluster = r.cluster ∧ r'.nodes = r.nodes ∧ r'.edges = r.edges ∧
        SeenAlike R φ r.seen r'.seen ∧ ∀ q ∈ r.seen, q ∈ s ∨ R q := by
  intro fuel
  induction fuel with
  | zero => intro s t p d r _ _ hr; simp [doPkgFuel] at hr
  | succ fuel ih =>
    intro s t p d r hp hst hr
    obtain ⟨fuel0, st, hf, hl, rfl⟩ := doPkgFuel_ok_inv IsStandPkg callDeep h _ s p d r hr
    obtain rfl : fuel0 = fuel := by omega
    obtain ⟨hpath, hname, _, himp⟩ := hc.2.2 p hp
    have hnode : pkgToNode (h (φ p)) = pkgToNode (h p) := by
      simp only [pkgToNode, hpath, hname]
    obtain ⟨out', ho, hc1, hc2, hc3, hc4⟩ :=
      importLoop_copy IsStandPkg callDeep h R φ hc _ _ (pkgToNode (h p)) d
        (fun s0 t0 q r0 hq hs0 hr0 => ih s0 t0 q _ r0 hq hs0 hr0)
        (h p).Imports (hc.1 p hp)
        { clusters := [], edges := [], seen := s } { clusters := [], edges := [], seen := t }
        st rfl rfl hst hl
    refine ⟨{ cluster := .mk (h p).PkgPath out'.clusters
                (if d > 0 then [pkgToNode (h p)] else []) (clusterAttrs (h p).PkgPath)
              nodes := [pkgToNode (h p)]
              edges := out'.edges
              seen := out'.seen }, ?_, ?_, ?_, ?_, ?_, ?_⟩
    · simp only [doPkgFuel, NewDotCluster, dotCluster.Clusters, hnode, himp, ho, hpath]
    · simp only [hc1]
    · rfl
    · exact hc2
    · exact hc3
    · exact hc4

/-- Every package of a set closed under imports is a copy of itself. -/
theorem copyOn_id {n : Nat} {h : Heap n} {R : Fin n → Prop} {φ : Fin n → Fin n}
    (hc : CopyOn h R φ) : CopyOn h R id :=
  ⟨hc.1, fun _ _ _ _ hpq => hpq, fun _ _ => ⟨rfl, rfl, rfl, by simp⟩⟩

/-- C10 (as amended): graph construction is independent of earlier requests whose
package objects are not those of the request at hand. Let the packages of `R`, a
set that holds the root and whatever its members import, be new (none is in the
process-wide seen set left by earlier requests), and let a later request load
the same source again as copies (`φ`) that are new objects too. Then the first
traversal returns, the second traversal `doPkg(φ root, 0)`, started from the seen
set the first one left behind, returns the same cluster tree, nodes and edges,
and `convertToDot` hands back the same outcome for both requests, which is also
the outcome of a run that starts with an empty seen set. -/
theorem convertToDot_fresh_request {n : Nat} {β : Type}
    (writeDot : dotGraph → Except String β) (minlen : Nat)
    (fmtErrors : List String → String) (IsStandPkg : String → Bool) (callDeep : Int)
    (h : Heap n) (R : Fin n → Prop) (φ : Fin n → Fin n) (seen : List (Fin n))
    (root : Fin n) (rest rest' : List (Fin n))
    (hc : CopyOn h R φ) (hroot : R root)
    (hnew : ∀ p, R p → p ∉ seen ∧ φ p ∉ seen ∧ ¬ R (φ p)) :
    (∃ r1 r2, doPkg IsStandPkg callDeep h seen root 0 = .ok r1 ∧
      doPkg IsStandPkg callDeep h r1.seen (φ root) 0 = .ok r2 ∧
      r2.cluster = r1.cluster ∧ r2.nodes = r1.nodes ∧ r2.edges = r1.edges) ∧
    ∃ out s1 s2 s3,
      convertToDot writeDot minlen fmtErrors IsStandPkg callDeep h seen (root :: rest) =
        .ok (out, s1) ∧
      convertToDot writeDot minlen fmtErrors IsStandPkg callDeep h s1 (φ root :: rest') =
        .ok (out, s2) ∧
      convertToDot writeDot minlen fmtErrors IsStandPkg callDeep h [] (root :: rest) =
        .ok (out, s3) := by
  obtain ⟨r1, hr1⟩ := doPkg_returns IsStandPkg callDeep h seen root 0
  obtain ⟨r3, hr3, c1, c2, c3, _, _⟩ :=
    doPkgFuel_copy IsStandPkg callDeep h R id (copyOn_id hc) _ seen [] root 0 r1 hroot
      (fun p hp => ⟨fun hx => absurd hx (hnew p hp).1, fun hx => by simp at hx⟩) hr1
  obtain ⟨_, _, _, _, _, _, hin⟩ :=
    doPkgFuel_copy IsStandPkg callDeep h R φ hc _ seen seen root 0 r1 hroot
      (fun p hp => ⟨fun hx => absurd hx (hnew p hp).1,
        fun hx => absurd hx (hnew p hp).2.1⟩) hr1
  have halike : SeenAlike R φ seen r1.seen := by
    intro p hp
    refine ⟨fun hx => absurd hx (hnew p hp).1, fun hx => ?_⟩
    rcases hin _ hx with h1 | h1
    · exact absurd h1 (hnew p hp).2.1
    · exact absurd h1 (hnew p hp).2.2
  obtain ⟨r2, hr2, e1, e2, e3, _, _⟩ :=
    doPkgFuel_copy IsStandPkg callDeep h R φ hc _ seen r1.seen root 0 r1 hroot halike hr1
  obtain ⟨hpath, _, herr, _⟩ := hc.2.2 root hroot
  refine ⟨⟨r1, r2, hr1, hr2, e1, e2, e3⟩, ?_⟩
  simp only [doPkg, id] at hr1 hr2 hr3
  simp only [convertToDot, convertToDotFuel, herr, hpath]
  cases hE : (h root).Errors with
  | some errs => exact ⟨_, _, _, _, rfl, rfl, rfl⟩
  | none =>
    simp only [hr1, hr3]
    refine ⟨writeDot (graphOf minlen (h root).PkgPath r1), r1.seen, r2.seen, r3.seen,
      rfl, ?_, ?_⟩
    · simp only [hr2, graphOf, e1, e2, e3]
    · simp only [graphOf, c1, c2, c3]

/-- C10, witness of `convertToDot_fresh_request`: `A` imports `B`, loaded twice. -/
theorem convertToDot_fresh_request_witness :
    CopyOn twoLoadsHeap (fun p => p.val < 2) (fun p => p + 2) ∧
    (0 : Fin 4).val < 2 ∧
    (∀ p : Fin 4, p.val < 2 → p ∉ ([] : List (Fin 4)) ∧ p + 2 ∉ ([] : List (Fin 4)) ∧
      ¬ (p + 2).val < 2) ∧
    (∃ r1 r2, doPkg (fun _ => false) 3 twoLoadsHeap [] 0 0 = .ok r1 ∧
      doPkg (fun _ => false) 3 twoLoadsHeap r1.seen ((0 : Fin 4) + 2) 0 = .ok r2 ∧
      r2.cluster = r1.cluster ∧ r2.nodes = r1.nodes ∧ r2.edges = r1.edges) ∧
    ∃ out s1 s2 s3,
      convertToDot (fun g => Except.ok g) 2 (fun _ => "") (fun _ => false) 3 twoLoadsHeap []
        [0] = .ok (out, s1) ∧
      convertToDot (fun g => Except.ok g) 2 (fun _ => "") (fun _ => false) 3 twoLoadsHeap s1
        [(0 : Fin 4) + 2] = .ok (out, s2) ∧
      convertToDot (fun g => Except.ok g) 2 (fun _ => "") (fun _ => false) 3 twoLoadsHeap []
        [0] = .ok (out, s3) :=
  ⟨by unfold CopyOn; decide, by decide, by decide,
    convertToDot_fresh_request (fun g => Except.ok g) 2 (fun _ => "") (fun _ => false) 3
      twoLoadsHeap (fun p => p.val < 2) (fun p => p + 2) [] 0 [] []
      (by unfold CopyOn; decide) (by decide) (by decide)⟩

/-- The two loads in full: the second request builds the cluster of `B` and the edge
from `A` to `B` again, on the objects 2 and 3, although 1 is in the seen set. -/
theorem convertToDot_two_loads :
    ∃ g s1 s2,
      convertToDotGraph 2 (fun _ => "") (fun _ => false) 3 twoLoadsHeap [] [0] =
        .ok (.ok g, s1) ∧
      convertToDotGraph 2 (fun _ => "") (fun _ => false) 3 twoLoadsHeap s1 [2] =
        .ok (.ok g, s2) ∧
      s1 = [1] ∧ s2 = [3, 1] ∧
      g.Cluster.Clusters.map Prod.fst = ["B"] ∧
      g.Edges.map (fun e => (e.From.ID, e.To.ID)) = [("A", "B")] :=
  ⟨_, _, _, rfl, rfl, rfl, rfl, rfl, rfl⟩

/-- C10, the claim as first stated fails: the seen set is a variable of the process
that no request resets, so it is not created fresh for a traversal. Running
`convertToDot` a second time on the same root `A` (which imports `B`) starts from
the seen set the first run left behind and builds a different graph: no child
cluster and no edge. -/
theorem convertToDot_second_request :
    ∃ g1 s1 g2 s2,
      convertToDotGraph 2 (fun _ => "") (fun _ => false) 3 pairHeap [] [0] = .ok (.ok g1, s1) ∧
      convertToDotGraph 2 (fun _ => "") (fun _ => false) 3 pairHeap s1 [0] = .ok (.ok g2, s2) ∧
      s1 = [1] ∧
      g1.Cluster.Clusters.map Prod.fst = ["B"] ∧
      g1.Edges.map (fun e => (e.From.ID, e.To.ID)) = [("A", "B")] ∧
      g2.Cluster.Clusters = [] ∧
      g2.Edges = [] :=
  ⟨_, _, _, _, rfl, rfl, rfl, rfl, rfl, rfl, rfl⟩

/-! ## Each pair of identities once -/

theorem doPkgFuel_freshTargets {n : Nat} (IsStandPkg : String → Bool) (callDeep : Int)
    (h : Heap n) :
    ∀ fuel s p (d : Int) r, doPkgFuel IsStandPkg callDeep h fuel s p d = .ok r →
      FreshTargets h s r.seen (r.edges.map (fun e => e.To)) := by
  intro fuel
  induction fuel with
  | zero => intro s p d r hr; simp [doPkgFuel] at hr
  | succ fuel ih =>
    intro s p d r hr
    obtain ⟨fuel0, st, hf, hst, rfl⟩ := doPkgFuel_ok_inv IsStandPkg callDeep h _ s p d r hr
    obtain rfl : fuel0 = fuel := by omega
    have hinv := importLoop_induct IsStandPkg callDeep h _ (pkgToNode (h p)) d
      (FreshTargetsInv h s)
      ?_ ?_ ?_ (h p).Imports { clusters := [], edges := [], seen := s } st
      ⟨fun _ hx => hx, [], List.nodup_nil, by simp, by simp⟩ hst
    · exact hinv.2
    · intro name q rest st0 hi _
      exact hi
    · intro name q rest st0 hi _ _ _
      obtain ⟨hsub, ps, hnd, hps, hto⟩ := hi
      exact ⟨fun x hx => List.mem_cons_of_mem _ (hsub hx), ps, hnd,
        fun x hx => ⟨(hps x hx).1, List.mem_cons_of_mem _ (hps x hx).2⟩, hto⟩
    · intro name q rest st0 r n0 ns hi _ hq _ hs hn
      obtain ⟨hsub, ps, hnd, hps, hto⟩ := hi
      obtain ⟨ps', hnd', hps', hto'⟩ := ih _ _ _ _ hs
      have hrsub := doPkgFuel_seen_subset IsStandPkg callDeep h _ _ _ _ _ hs
      obtain ⟨hrn, _, _, _⟩ := doPkgFuel_shape IsStandPkg callDeep h _ _ _ _ _ hs
      have hn0 : n0 = pkgToNode (h q) := by
        rw [hrn] at hn
        simp only [List.cons.injEq] at hn
        exact hn.1.symm
      refine ⟨fun x hx => hrsub (List.mem_cons_of_mem _ (hsub hx)), ps ++ q :: ps', ?_, ?_, ?_⟩
      · rw [List.nodup_append]
        refine ⟨hnd, ?_, ?_⟩
        · rw [List.nodup_cons]
          exact ⟨fun hqm => (hps' q hqm).1 (List.mem_cons_self _ _), hnd'⟩
        · intro x hx hx'
          rw [List.mem_cons] at hx'
          rcases hx' with hx' | hx'
          · subst hx'; exact hq (hps x hx).2
          · exact (hps' x hx').1 (List.mem_cons_of_mem _ (hps x hx).2)
      · intro x hx
        rw [List.mem_append, List.mem_cons] at hx
        rcases hx with hx | hx | hx
        · exact ⟨(hps x hx).1, hrsub (List.mem_cons_of_mem _ (hps x hx).2)⟩
        · subst hx
          exact ⟨fun hx0 => hq (hsub hx0), hrsub (List.mem_cons_self _ _)⟩
        · exact ⟨fun hx0 => (hps' x hx).1 (List.mem_cons_of_mem _ (hsub hx0)), (hps' x hx).2⟩
      · simp only [List.map_append, List.map_cons, List.map_nil, hto, hto', hn0,
          List.append_assoc, List.singleton_append]

/-- C11 (as amended): for every heap in which distinct packages have distinct
`PkgPath`s (import cycles allowed), every classifier, depth limit and seen set
before, the edge list `doPkg(root, 0)` returns holds each pair of `From` identity
and `To` identity at most once; indeed no two returned edges have the same `To`
identity. -/
theorem doPkg_edges_nodup {n : Nat} (IsStandPkg : String → Bool) (callDeep : Int)
    (h : Heap n) (seen : List (Fin n)) (root : Fin n) (hinj : InjPaths h) :
    ∃ r, doPkg IsStandPkg callDeep h seen root 0 = .ok r ∧
      (r.edges.map (fun e => (e.From.ID, e.To.ID))).Nodup ∧
      (r.edges.map (fun e => e.To.ID)).Nodup := by
  obtain ⟨r, hr⟩ := doPkg_returns IsStandPkg callDeep h seen root 0
  obtain ⟨ps, hnd, _, hto⟩ := doPkgFuel_freshTargets IsStandPkg callDeep h _ _ _ _ _ hr
  have hids : r.edges.map (fun e => e.To.ID) = ps.map (fun q => (h q).PkgPath) := by
    have := congrArg (List.map (fun nd : dotNode => nd.ID)) hto
    simpa [List.map_map, Function.comp_def, pkgToNode] using this
  have hnodup : (r.edges.map (fun e => e.To.ID)).Nodup := by
    rw [hids]
    exact hnd.map (fun p q hpq => hinj p q hpq)
  refine ⟨r, hr, ?_, hnodup⟩
  have hsnd : (r.edges.map (fun e => (e.From.ID, e.To.ID))).map Prod.snd =
      r.edges.map (fun e => e.To.ID) := by
    simp [List.map_map, Function.comp_def]
  exact List.Nodup.of_map Prod.snd (hsnd ▸ hnodup)

/-- C11, witness of `doPkg_edges_nodup`: the cycle `A` imports `B`, `B` imports `C`,
`C` imports `A`, with depth limit 5. -/
theorem doPkg_edges_nodup_witness :
    InjPaths cycle3Heap ∧
    ∃ r, doPkg (fun _ => false) 5 cycle3Heap [] 0 0 = .ok r ∧
      (r.edges.map (fun e => (e.From.ID, e.To.ID))).Nodup ∧
      (r.edges.map (fun e => e.To.ID)).Nodup :=
  ⟨by unfold InjPaths; decide,
    doPkg_edges_nodup (fun _ => false) 5 cycle3Heap [] 0 (by unfold InjPaths; decide)⟩

/-- C11, counterexample to the claim as stated: the root `A` imports two different
packages that both have the identity `B`; each gets an edge from `A`, so the
pair (`A`, `B`) occurs twice in the returned edge list. -/
theorem doPkg_twin_edges :
    ∃ r, doPkg (fun _ => false) 3 twinHeap [] 0 0 = .ok r ∧
      (r.edges.map (fun e => (e.From.ID, e.To.ID))).count ("A", "B") = 2 :=
  ⟨_, rfl, by decide⟩

/-- The walk of the cycle of three units with depth limit 5: each cycle edge once. -/
theorem doPkg_cycle3_edges :
    ∃ r, doPkg (fun _ => false) 5 cycle3Heap [] 0 0 = .ok r ∧
      r.edges.map (fun e => (e.From.ID, e.To.ID)) = [("A", "B"), ("B", "C"), ("C", "A")] :=
  ⟨_, rfl, by decide⟩

/-! ## Status of the response -/

/-- C13, the code at the failing input: `packages.Load` fails, the response writer
is fresh. `handler` writes the message first, which sends status 200, and the
call `WriteHeader(500)` after it changes nothing: the status recorded is 200,
not 500. -/
theorem handler_load_failure_status :
    ∃ w seen',
      handler (fun _ => .error "no such directory") (fun g => Except.ok g) 2 (fun _ => "")
        (fun _ => false) 3 pairHeap (fun _ => .ok "out.svg") (fun w _ => w)
        "./cmd/stringer" "" [] freshWriter = .ok (w, seen') ∧
      w.status = some 200 ∧ w.status ≠ some 500 ∧
      w.body = "load package of ./cmd/stringer failed no such directory. " :=
  ⟨_, _, rfl, rfl, by decide, by decide⟩

/-- The status `handler` records on each failure path, for every loader, heap and
writer without a header: 200 when `packages.Load` fails, 500 when `convertToDot`
or `dotToImage` fails. -/
theorem handler_failure_paths {n : Nat} {β : Type}
    (load : String → Except String (List (Fin n)))
    (writeDot : dotGraph → Except String β) (minlen : Nat)
    (fmtErrors : List String → String) (IsStandPkg : String → Bool) (callDeep : Int)
    (h : Heap n) (dotToImage : β → Except String String)
    (serveFile : ResponseWriter → String → ResponseWriter)
    (anaDir : String) (f : String) (seen : List (Fin n)) (body : String) :
    (∀ err, load (if f ≠ "" then f else anaDir) = .error err →
      ∃ w, handler load writeDot minlen fmtErrors IsStandPkg callDeep h dotToImage serveFile
          anaDir f seen { status := none, body := body } = .ok (w, seen) ∧
        w.status = some 200) ∧
    (∀ lpkgs err seen', load (if f ≠ "" then f else anaDir) = .ok lpkgs →
      convertToDot writeDot minlen fmtErrors IsStandPkg callDeep h seen lpkgs =
        .ok (.error err, seen') →
      ∃ w, handler load writeDot minlen fmtErrors IsStandPkg callDeep h dotToImage serveFile
          anaDir f seen { status := none, body := body } = .ok (w, seen') ∧
        w.status = some 500 ∧ w.body = body ++ (err ++ "\n")) ∧
    (∀ lpkgs res err seen', load (if f ≠ "" then f else anaDir) = .ok lpkgs →
      convertToDot writeDot minlen fmtErrors IsStandPkg callDeep h seen lpkgs =
        .ok (.ok res, seen') →
      dotToImage res = .error err →
      ∃ w, handler load writeDot minlen fmtErrors IsStandPkg callDeep h dotToImage serveFile
          anaDir f seen { status := none, body := body } = .ok (w, seen') ∧
        w.status = some 500 ∧ w.body = body ++ (err ++ "\n")) := by
  refine ⟨?_, ?_, ?_⟩
  · intro err hl
    simp only [handler, hl]
    exact ⟨_, rfl, rfl⟩
  · intro lpkgs err seen' hl hc
    simp only [handler, hl, hc]
    exact ⟨_, rfl, rfl, rfl⟩
  · intro lpkgs res err seen' hl hc hd
    simp only [handler, hl, hc, hd]
    exact ⟨_, rfl, rfl, rfl⟩

/-! ## Where an edge comes from -/

theorem edgeVia_append {n : Nat} {IsStandPkg : String → Bool} {callDeep : Int} {h : Heap n}
    {u : Fin n} {cs ds : List (String × dotCluster)} {e : dotEdge}
    (he : EdgeVia IsStandPkg callDeep h u cs e) :
    EdgeVia IsStandPkg callDeep h u (cs ++ ds) e := by
  obtain ⟨v, key, cv, h1, h2, h3, h4, h5, h6⟩ := he
  exact ⟨v, key, cv, h1, h2, h3, h4, List.mem_append_left _ h5, h6⟩

theorem edgeJustified_of_subset {n : Nat} {IsStandPkg : String → Bool} {callDeep : Int}
    {h : Heap n} {cl cl' : List dotCluster} {e : dotEdge} (hsub : ∀ c ∈ cl, c ∈ cl')
    (he : EdgeJustified IsStandPkg callDeep h cl e) :
    EdgeJustified IsStandPkg callDeep h cl' e := by
  obtain ⟨u, cu, h1, h2, h3⟩ := he
  exact ⟨u, cu, hsub cu h1, h2, h3⟩

theorem doPkgFuel_edgeJustified {n : Nat} (IsStandPkg : String → Bool) (callDeep : Int)
    (h : Heap n) (hk : UniqueKeys h) :
    ∀ fuel s p (d : Int) r, doPkgFuel IsStandPkg callDeep h fuel s p d = .ok r →
      ∀ e ∈ r.edges, EdgeJustified IsStandPkg callDeep h r.cluster.subclusters e := by
  intro fuel
  induction fuel with
  | zero => intro s p d r hr; simp [doPkgFuel] at hr
  | succ fuel ih =>
    intro s p d r hr
    obtain ⟨fuel0, st, hf, hst, hreq⟩ := doPkgFuel_ok_inv IsStandPkg callDeep h _ s p d r hr
    obtain rfl : fuel0 = fuel := by omega
    have hinv := importLoop_induct_keys IsStandPkg callDeep h _ (pkgToNode (h p)) d
      (h p).Imports (hk p) (EdgeJustifiedInv IsStandPkg callDeep h p)
      ?_ ?_ ?_ s st (by intro e he; simp at he) hst
    · intro e he
      have hcl : r.cluster.subclusters = r.cluster :: subclustersOfMap st.clusters := by
        rw [subclusters_eq, hreq]
        rfl
      have hcs : r.cluster.Clusters = st.clusters := by rw [hreq]; rfl
      have hedges : r.edges = st.edges := by rw [hreq]
      rw [hedges] at he
      rcases hinv e he with h1 | h1
      · exact ⟨p, r.cluster, by rw [hcl]; exact List.mem_cons_self _ _,
          ⟨_, s, d, r, hr, rfl⟩, hcs ▸ h1⟩
      · exact edgeJustified_of_subset
          (fun c hc => by rw [hcl]; exact List.mem_cons_of_mem _ hc) h1
    · intro name q rest st0 hi _ _
      exact hi
    · intro name q rest st0 hi _ _ _ _
      exact hi
    · intro name q rest st0 r' n0 ns hi hmem hstd _ _ hs hn
      obtain ⟨hrn, _, _, _⟩ := doPkgFuel_shape IsStandPkg callDeep h _ _ _ _ _ hs
      have hn0 : n0 = pkgToNode (h q) := by
        rw [hrn] at hn
        simp only [List.cons.injEq] at hn
        exact hn.1.symm
      have hre := ih _ _ _ _ hs
      intro e he
      simp only [List.mem_append, List.mem_singleton] at he
      rcases he with (he | he) | he
      · rcases hi e he with h1 | h1
        · exact Or.inl (edgeVia_append h1)
        · refine Or.inr (edgeJustified_of_subset ?_ h1)
          intro c hc
          rw [subclustersOfMap_append]
          exact List.mem_append_left _ hc
      · subst he
        exact Or.inl ⟨q, name, r'.cluster, hmem, rfl, hn0, hstd, by simp,
          ⟨_, _, _, r', hs, rfl⟩⟩
      · refine Or.inr (edgeJustified_of_subset ?_ (hre e he))
        intro c hc
        rw [subclustersOfMap_append]
        refine List.mem_append_right _ ?_
        simp only [subclustersOfMap, List.append_nil]
        exact hc

/-- C14: for every heap whose import maps have no repeated key and every call
`doPkg(pkg, deep)`, every returned edge is accounted for: there are a unit `u`
that was walked (a cluster `cu` of the returned tree is the one a call of `doPkg`
on `u` returned) and an entry `key -> v` of the import map of `u` such that
the edge goes from the node of `u` to the node of `v` (the node 0 the call on
`v` returns), `v` is not standard, and the cluster a call of `doPkg` on `v`
returned is stored under `key` in the `Clusters` map of `cu`. -/
theorem doPkg_edges_follow_imports {n : Nat} (IsStandPkg : String → Bool) (callDeep : Int)
    (h : Heap n) (seen : List (Fin n)) (pkg : Fin n) (deep : Int) (hk : UniqueKeys h) :
    ∃ r, doPkg IsStandPkg callDeep h seen pkg deep = .ok r ∧
      ∀ e ∈ r.edges, ∃ (u v : Fin n) (key : String) (cu cv : dotCluster),
        cu ∈ r.cluster.subclusters ∧ BuiltFor IsStandPkg callDeep h u cu ∧
        (key, v) ∈ (h u).Imports ∧
        e.From = pkgToNode (h u) ∧ e.To = pkgToNode (h v) ∧
        e.From.ID = (h u).PkgPath ∧ e.To.ID = (h v).PkgPath ∧
        IsStandPkg (h v).PkgPath = false ∧
        (key, cv) ∈ cu.Clusters ∧ BuiltFor IsStandPkg callDeep h v cv ∧
        cu.ID = (h u).PkgPath ∧ cv.ID = (h v).PkgPath := by
  obtain ⟨r, hr⟩ := doPkg_returns IsStandPkg callDeep h seen pkg deep
  refine ⟨r, hr, ?_⟩
  intro e he
  obtain ⟨u, cu, h1, h2, v, key, cv, h3, h4, h5, h6, h7, h8⟩ :=
    doPkgFuel_edgeJustified IsStandPkg callDeep h hk _ _ _ _ _ hr e he
  refine ⟨u, v, key, cu, cv, h1, h2, h3, h4, h5, by rw [h4]; rfl, by rw [h5]; rfl, h6, h7,
    h8, ?_, ?_⟩
  · obtain ⟨f1, s1, d1, r1, hr1, rfl⟩ := h2
    exact (doPkgFuel_shape IsStandPkg callDeep h _ _ _ _ _ hr1).2.2.1
  · obtain ⟨f1, s1, d1, r1, hr1, rfl⟩ := h8
    exact (doPkgFuel_shape IsStandPkg callDeep h _ _ _ _ _ hr1).2.2.1

/-- C14, witness of `doPkg_edges_follow_imports`: the diamond `A`, `B`, `C`, `D`. -/
theorem doPkg_edges_follow_imports_witness :
    UniqueKeys (diamondHeap "A" "B" "C" "D" false) ∧
    ∃ r, doPkg (fun _ => false) 3 (diamondHeap "A" "B" "C" "D" false) [] 0 0 = .ok r ∧
      ∀ e ∈ r.edges, ∃ (u v : Fin 4) (key : String) (cu cv : dotCluster),
        cu ∈ r.cluster.subclusters ∧
        BuiltFor (fun _ => false) 3 (diamondHeap "A" "B" "C" "D" false) u cu ∧
        (key, v) ∈ (diamondHeap "A" "B" "C" "D" false u).Imports ∧
        e.From = pkgToNode (diamondHeap "A" "B" "C" "D" false u) ∧
        e.To = pkgToNode (diamondHeap "A" "B" "C" "D" false v) ∧
        e.From.ID = (diamondHeap "A" "B" "C" "D" false u).PkgPath ∧
        e.To.ID = (diamondHeap "A" "B" "C" "D" false v).PkgPath ∧
        (fun _ => false) (diamondHeap "A" "B" "C" "D" false v).PkgPath = false ∧
        (key, cv) ∈ cu.Clusters ∧
        BuiltFor (fun _ => false) 3 (diamondHeap "A" "B" "C" "D" false) v cv ∧
        cu.ID = (diamondHeap "A" "B" "C" "D" false u).PkgPath ∧
        cv.ID = (diamondHeap "A" "B" "C" "D" false v).PkgPath :=
  ⟨by unfold UniqueKeys; decide,
    doPkg_edges_follow_imports (fun _ => false) 3 (diamondHeap "A" "B" "C" "D" false) [] 0 0
      (by unfold UniqueKeys; decide)⟩

/-! ## A linear chain -/

theorem doPkgFuel_chain {k : Nat} (IsStandPkg : String → Bool) (N : Int)
    (path : Fin k → String) (hstd : ∀ i, IsStandPkg (path i) = false) (hN : N < 2 ^ 63) :
    ∀ fuel (i : Fin k) (seen : List (Fin k)) (r : WalkResult k),
      (∀ q ∈ seen, q.val ≤ i.val) → (i.val : Int) < N →
      doPkgFuel IsStandPkg N (chainOf k path) fuel seen i (i.val : Int) = .ok r →
      (r.cluster.depth : Int) = min ((k : Int) - i.val) (N - i.val) := by
  intro fuel
  induction fuel with
  | zero => intro i seen r _ _ hr; simp [doPkgFuel] at hr
  | succ fuel ih =>
    intro i seen r hseen hiN hr
    obtain ⟨fuel0, st, hf, hst, rfl⟩ := doPkgFuel_ok_inv IsStandPkg N _ _ seen i _ r hr
    obtain rfl : fuel0 = fuel := by omega
    have hik : i.val < k := i.isLt
    by_cases hi : i.val + 1 < k
    · have himp : (chainOf k path i).Imports =
          [(path ⟨i.val + 1, hi⟩, ⟨i.val + 1, hi⟩)] := by
        simp [chainOf, hi, mkPkg]
      have hpath : (chainOf k path ⟨i.val + 1, hi⟩).PkgPath = path ⟨i.val + 1, hi⟩ := by
        unfold chainOf
        split <;> rfl
      have hnot : (⟨i.val + 1, hi⟩ : Fin k) ∉ seen := by
        intro hm
        have := hseen _ hm
        simp at this
      have hadd : addInt (i.val : Int) 1 = (i.val : Int) + 1 :=
        addInt_of_range (by omega) (by omega)
      rw [himp] at hst
      simp only [importLoop, hpath, hstd, hnot, hadd, Bool.false_eq_true, if_false] at hst
      by_cases hlim : (i.val : Int) + 1 = N
      · simp only [hlim, if_true, Except.ok.injEq] at hst
        subst hst
        simp only [dotCluster.depth, depthOfMap]
        omega
      · simp only [hlim, if_false] at hst
        cases hs : doPkgFuel IsStandPkg N (chainOf k path) fuel0
            (⟨i.val + 1, hi⟩ :: seen) ⟨i.val + 1, hi⟩ ((i.val : Int) + 1) with
        | error e => simp [hs] at hst
        | ok r' =>
          obtain ⟨hrn, _, _, _⟩ := doPkgFuel_shape IsStandPkg N _ _ _ _ _ _ hs
          simp only [hs, hrn, Except.ok.injEq] at hst
          subst hst
          have hd := ih ⟨i.val + 1, hi⟩ (⟨i.val + 1, hi⟩ :: seen) r'
            (by
              intro q hq
              rw [List.mem_cons] at hq
              rcases hq with hq | hq
              · subst hq; exact le_refl _
              · have := hseen q hq
                simp only
                omega)
            (by simp only; push_cast; omega)
            (by simpa using hs)
          simp only [Nat.cast_add, Nat.cast_one] at hd
          simp only [dotCluster.depth, mapSet, depthOfMap]
          push_cast
          omega
    · have himp : (chainOf k path i).Imports = [] := by
        simp [chainOf, hi, mkPkg]
      rw [himp] at hst
      simp only [importLoop, Except.ok.injEq] at hst
      subst hst
      simp only [dotCluster.depth, depthOfMap]
      omega

/-- C15: for a linear import chain of `k ≥ 1` units, none of them standard (unit
`i` imports only unit `i + 1`), an empty seen set and a depth limit `N ≥ 1` (a
Go `int`), `doPkg(u1, 0)` returns a cluster tree whose deepest nesting is exactly
`min(k, N)` clusters, the root cluster counted as 1. -/
theorem doPkg_chain_depth (k : Nat) (IsStandPkg : String → Bool) (N : Int)
    (path : Fin k → String) (hk : 0 < k) (hstd : ∀ i, IsStandPkg (path i) = false)
    (h1 : 1 ≤ N) (hN : N < 2 ^ 63) :
    ∃ r, doPkg IsStandPkg N (chainOf k path) [] ⟨0, hk⟩ 0 = .ok r ∧
      (r.cluster.depth : Int) = min (k : Int) N := by
  obtain ⟨r, hr⟩ := doPkg_returns IsStandPkg N (chainOf k path) [] ⟨0, hk⟩ 0
  have hd := doPkgFuel_chain IsStandPkg N path hstd hN (k + 1) ⟨0, hk⟩ [] r
    (by intro q hq; simp at hq) (by simp only; push_cast; omega) (by simpa [doPkg] using hr)
  refine ⟨r, hr, ?_⟩
  simpa using hd

/-- C15, witness of `doPkg_chain_depth`: five units and depth limit 3. -/
theorem doPkg_chain_depth_witness :
    0 < 5 ∧ (∀ i : Fin 5, (fun _ => false) ((![ "A", "B", "C", "D", "E"] : Fin 5 → String) i) =
      false) ∧ (1 : Int) ≤ 3 ∧ (3 : Int) < 2 ^ 63 ∧
    ∃ r, doPkg (fun _ => false) 3 (chainOf 5 ![ "A", "B", "C", "D", "E"]) []
        ⟨0, by decide⟩ 0 = .ok r ∧
      (r.cluster.depth : Int) = min ((5 : Nat) : Int) 3 :=
  ⟨by decide, fun _ => rfl, by decide, by decide,
    doPkg_chain_depth 5 (fun _ => false) 3 ![ "A", "B", "C", "D", "E"] (by decide)
      (fun _ => rfl) (by decide) (by decide)⟩

/-- The chain of five units with depth limit 3: the deepest nesting is exactly 3. -/
theorem doPkg_chain_five_three :
    ∃ r, doPkg (fun _ => false) 3 chainHeap [] 0 0 = .ok r ∧ r.cluster.depth = 3 ∧
      r.cluster.subclusters.map (fun c => c.ID) = ["A", "B", "C"] :=
  ⟨_, rfl, by decide, by decide⟩

/-! ## Dependence on the iteration order -/

/-- C17: the units in the result of `doPkg(root, 0)` depend on the iteration order
of the root's import map. Root `A` imports `B` and `C`, `B` imports `C`, nothing
is standard, the depth limit is 2 and the seen set empty. When `B` comes first,
`C` is marked seen inside the walk of `B`, where the depth check stops it, and
the root then skips it: `C` appears nowhere in the result. When `C` comes first
it gets a cluster, a node and an edge from `A`. In both orders `C` is an import
of the root and is not standard. -/
theorem doPkg_order_dependent :
    ∃ r1 r2,
      doPkg (fun _ => false) 2 (triangleHeap false) [] 0 0 = .ok r1 ∧
      doPkg (fun _ => false) 2 (triangleHeap true) [] 0 0 = .ok r2 ∧
      (∀ p, (triangleHeap false p).PkgPath = (triangleHeap true p).PkgPath ∧
        List.Perm (triangleHeap false p).Imports (triangleHeap true p).Imports) ∧
      ("C", (2 : Fin 3)) ∈ (triangleHeap false 0).Imports ∧
      "C" ∉ r1.units ∧
      r1.units.dedup = ["A", "B"] ∧
      (∃ c ∈ r2.cluster.subclusters, c.ID = "C") ∧
      (∃ nd ∈ r2.cluster.allNodes, nd.ID = "C") ∧
      (∃ e ∈ r2.edges, e.From.ID = "A" ∧ e.To.ID = "C") ∧
      2 ∈ r1.seen :=
  ⟨_, _, rfl, rfl, by decide, by decide, by decide, by decide, by decide, by decide,
    by decide, by decide⟩

/-! ## Edges mirror the cluster tree -/

theorem doPkgFuel_mirror {n : Nat} (IsStandPkg : String → Bool) (callDeep : Int)
    (h : Heap n) (hk : UniqueKeys h) :
    ∀ fuel s p (d : Int) r, doPkgFuel IsStandPkg callDeep h fuel s p d = .ok r →
      r.edges.map dotEdge.ids = r.cluster.treeEdges ∧
      r.edges.map (fun e => e.To.ID) =
        (subclustersOfMap r.cluster.Clusters).map (fun c => c.ID) := by
  intro fuel
  induction fuel with
  | zero => intro s p d r hr; simp [doPkgFuel] at hr
  | succ fuel ih =>
    intro s p d r hr
    obtain ⟨fuel0, st, hf, hst, rfl⟩ := doPkgFuel_ok_inv IsStandPkg callDeep h _ s p d r hr
    obtain rfl : fuel0 = fuel := by omega
    have hinv := importLoop_induct_keys IsStandPkg callDeep h _ (pkgToNode (h p)) d
      (h p).Imports (hk p) (MirrorInv (h p).PkgPath)
      ?_ ?_ ?_ s st ⟨rfl, rfl⟩ hst
    · obtain ⟨h1, h2⟩ := hinv
      refine ⟨?_, ?_⟩
      · simp only [dotCluster.treeEdges]
        exact h1
      · exact h2
    · intro name q rest st0 hi _ _
      exact hi
    · intro name q rest st0 hi _ _ _ _
      exact hi
    · intro name q rest st0 r' n0 ns hi _ _ _ _ hs hn
      obtain ⟨h1, h2⟩ := hi
      obtain ⟨hrn, _, hid, _⟩ := doPkgFuel_shape IsStandPkg callDeep h _ _ _ _ _ hs
      have hn0 : n0 = pkgToNode (h q) := by
        rw [hrn] at hn
        simp only [List.cons.injEq] at hn
        exact hn.1.symm
      obtain ⟨hr1, hr2⟩ := ih _ _ _ _ hs
      refine ⟨?_, ?_⟩
      · simp only [List.map_append, List.map_cons, List.map_nil, h1, hr1,
          treeEdgesOfMap_append, treeEdgesOfMap, List.append_nil, dotEdge.ids, hn0, hid,
          List.append_assoc, List.singleton_append]
        rfl
      · simp only [List.map_append, List.map_cons, List.map_nil, h2, hr2,
          subclustersOfMap_append, subclustersOfMap, List.append_nil, subclusters_eq, hn0, hid,
          List.append_assoc, List.singleton_append]
        rfl

/-- C18 (as amended): for every heap whose import maps have no repeated key and in
which no two packages share a `PkgPath`, and every traversal `doPkg(root, 0)`,
the returned edges mirror the returned cluster tree. The list of the edges'
(`From` ID, `To` ID) pairs is the list of the tree's parent/child pairs, and the
list of the edges' `To` IDs is the list of the IDs of the non-root clusters, so
there are as many edges as non-root clusters. For every cluster of the tree and
every child attached to it there is an edge from the cluster's ID to the child's
ID, exactly one edge has the child's ID as its `To` ID, and every edge with that
`To` ID has the ID of the parent as its `From` ID. -/
theorem doPkg_edges_mirror_tree {n : Nat} (IsStandPkg : String → Bool) (callDeep : Int)
    (h : Heap n) (seen : List (Fin n)) (root : Fin n) (hk : UniqueKeys h)
    (hinj : InjPaths h) :
    ∃ r, doPkg IsStandPkg callDeep h seen root 0 = .ok r ∧
      r.edges.map dotEdge.ids = r.cluster.treeEdges ∧
      r.edges.map (fun e => e.To.ID) =
        (subclustersOfMap r.cluster.Clusters).map (fun c => c.ID) ∧
      r.edges.length = (subclustersOfMap r.cluster.Clusters).length ∧
      (∀ c ∈ r.cluster.subclusters, ∀ kc ∈ c.Clusters,
        (∃ e ∈ r.edges, e.From.ID = c.ID ∧ e.To.ID = kc.2.ID) ∧
        (r.edges.map (fun e => e.To.ID)).count kc.2.ID = 1 ∧
        (r.edges.filter (fun e => decide (e.To.ID = kc.2.ID))).length = 1 ∧
        ∀ e ∈ r.edges, e.To.ID = kc.2.ID → e.From.ID = c.ID) := by
  obtain ⟨r, hr⟩ := doPkg_returns IsStandPkg callDeep h seen root 0
  obtain ⟨h1, h2⟩ := doPkgFuel_mirror IsStandPkg callDeep h hk _ _ _ _ _ hr
  have hce := doPkgFuel_childEdges IsStandPkg callDeep h _ _ _ _ _ hr
  refine ⟨r, hr, h1, h2, ?_, ?_⟩
  · have := congrArg List.length h2
    simpa using this
  · intro c hc kc hkc
    obtain ⟨e, he, hf, ht⟩ := hce c hc kc hkc
    obtain ⟨ps, hnd, _, hto⟩ := doPkgFuel_freshTargets IsStandPkg callDeep h _ _ _ _ _ hr
    have hids : r.edges.map (fun e => e.To.ID) = ps.map (fun q => (h q).PkgPath) := by
      have := congrArg (List.map (fun nd : dotNode => nd.ID)) hto
      simpa [List.map_map, Function.comp_def, pkgToNode] using this
    have hnodup : (r.edges.map (fun e => e.To.ID)).Nodup := by
      rw [hids]
      exact hnd.map (fun p q hpq => hinj p q hpq)
    have hcount : (r.edges.map (fun e => e.To.ID)).count kc.2.ID = 1 :=
      List.count_eq_one_of_mem hnodup (List.mem_map.2 ⟨e, he, ht⟩)
    refine ⟨⟨e, he, hf, ht⟩, hcount, ?_, ?_⟩
    · rw [← hcount, List.count, List.countP_map, List.countP_eq_length_filter]
      congr 1
    · intro e' he' ht'
      have heq : e' = e := List.inj_on_of_nodup_map hnodup he' he (ht'.trans ht.symm)
      rw [heq]
      exact hf

/-- C18, witness of `doPkg_edges_mirror_tree`: the diamond `A`, `B`, `C`, `D`. -/
theorem doPkg_edges_mirror_tree_witness :
    UniqueKeys (diamondHeap "A" "B" "C" "D" false) ∧
    InjPaths (diamondHeap "A" "B" "C" "D" false) ∧
    ∃ r, doPkg (fun _ => false) 3 (diamondHeap "A" "B" "C" "D" false) [] 0 0 = .ok r ∧
      r.edges.map dotEdge.ids = r.cluster.treeEdges ∧
      r.edges.map (fun e => e.To.ID) =
        (subclustersOfMap r.cluster.Clusters).map (fun c => c.ID) ∧
      r.edges.length = (subclustersOfMap r.cluster.Clusters).length ∧
      (∀ c ∈ r.cluster.subclusters, ∀ kc ∈ c.Clusters,
        (∃ e ∈ r.edges, e.From.ID = c.ID ∧ e.To.ID = kc.2.ID) ∧
        (r.edges.map (fun e => e.To.ID)).count kc.2.ID = 1 ∧
        (r.edges.filter (fun e => decide (e.To.ID = kc.2.ID))).length = 1 ∧
        ∀ e ∈ r.edges, e.To.ID = kc.2.ID → e.From.ID = c.ID) :=
  ⟨by unfold UniqueKeys; decide, by unfold InjPaths; decide,
    doPkg_edges_mirror_tree (fun _ => false) 3 (diamondHeap "A" "B" "C" "D" false) [] 0
      (by unfold UniqueKeys; decide) (by unfold InjPaths; decide)⟩

/-- C18, the claim as first stated fails: in `twinHeap` the import map of `A` has
two distinct keys, under which it holds two package objects with the same
`PkgPath` `B`. The walk attaches two clusters with ID `B` to the root cluster and
returns two edges from `A` to `B`, so for each of the two non-root clusters
there are two edges, not one, whose `To` ID is the cluster's ID and whose `From`
ID is the ID of its parent. -/
theorem doPkg_twin_clusters_two_edges :
    UniqueKeys twinHeap ∧
    ∃ r, doPkg (fun _ => false) 3 twinHeap [] 0 0 = .ok r ∧
      r.cluster.ID = "A" ∧
      r.cluster.Clusters.map (fun kc => (kc.1, kc.2.ID)) = [("B", "B"), ("vendor/B", "B")] ∧
      r.edges.length = (subclustersOfMap r.cluster.Clusters).length ∧
      ∀ kc ∈ r.cluster.Clusters,
        (r.edges.filter
          (fun e => decide (e.To.ID = kc.2.ID ∧ e.From.ID = r.cluster.ID))).length = 2 :=
  ⟨by unfold UniqueKeys; decide, _, rfl, by decide, by decide, by decide, by decide⟩

/-- The diamond: three edges for the three non-root clusters, and no edge from `C`
to `D` although `C` imports `D`. -/
theorem doPkg_diamond_spanning_tree :
    ∃ r, doPkg (fun _ => false) 3 (diamondHeap "A" "B" "C" "D" false) [] 0 0 = .ok r ∧
      r.edges.map dotEdge.ids = [("A", "B"), ("B", "D"), ("A", "C")] ∧
      r.cluster.treeEdges = [("A", "B"), ("B", "D"), ("A", "C")] ∧
      ("D", (3 : Fin 4)) ∈ (diamondHeap "A" "B" "C" "D" false 2).Imports :=
  ⟨_, rfl, by decide, by decide, by decide⟩

end PackageDep

namespace Cache

/-! ## Dependencies by path -/

theorem missingLoop_eq (m : List (String × String)) :
    ∀ (paths missing : List String),
      missingLoop m paths missing = missing ++ paths.filter (isBlank m) := by
  intro paths
  induction paths with
  | nil => intro missing; simp [missingLoop]
  | cons path rest ih =>
    intro missing
    simp only [missingLoop]
    split
    · rename_i id hl
      split_ifs with hid
      · subst hid
        simp [ih, List.filter_cons, isBlank, hl]
      · simp [ih, List.filter_cons, isBlank, hl, hid]
    · rename_i hl
      simp [ih, List.filter_cons, isBlank, hl]

/-- C12: `DirectDep(pkgPath)` returns a dependency `d` without error exactly when
`DepsByPkgPath` maps `pkgPath` to an ID `id` and the map `deps` holds the non-nil
pointer `d` under `id`, and in every other case returns the error;
`ResolveImportPath(importPath)` returns `d` exactly when `DepsByImpPath` maps
`importPath` to a non-blank ID `id` and `deps` holds the non-nil pointer `d`
under `id`, and in every other case (no entry, blank ID, key absent from `deps`,
nil pointer stored) returns the error. -/
theorem DirectDep_ResolveImportPath {α : Type} (p : pkg α) (path : String) :
    (∀ d, p.DirectDep path = .ok d ↔
      ∃ id, p.m.DepsByPkgPath.lookup path = some id ∧ p.deps.lookup id = some (some d)) ∧
    ((¬ ∃ id d, p.m.DepsByPkgPath.lookup path = some id ∧
        p.deps.lookup id = some (some d)) →
      p.DirectDep path = .error ("package does not import package with path " ++ path)) ∧
    (∀ d, p.ResolveImportPath path = .ok d ↔
      ∃ id, p.m.DepsByImpPath.lookup path = some id ∧ id ≠ "" ∧
        p.deps.lookup id = some (some d)) ∧
    ((¬ ∃ id d, p.m.DepsByImpPath.lookup path = some id ∧ id ≠ "" ∧
        p.deps.lookup id = some (some d)) →
      p.ResolveImportPath path = .error ("package does not import " ++ path)) ∧
    (p.m.DepsByImpPath.lookup path = some "" →
      p.ResolveImportPath path = .error ("package does not import " ++ path)) ∧
    (∀ id, p.m.DepsByImpPath.lookup path = some id →
      (p.deps.lookup id = none ∨ p.deps.lookup id = some none) →
      p.ResolveImportPath path = .error ("package does not import " ++ path)) ∧
    (∀ id, p.m.DepsByPkgPath.lookup path = some id →
      (p.deps.lookup id = none ∨ p.deps.lookup id = some none) →
      p.DirectDep path = .error ("package does not import package with path " ++ path)) := by
  have hd : ∀ (id : String) (d : α),
      p.depsAt id = some d ↔ p.deps.lookup id = some (some d) := by
    intro id d
    unfold pkg.depsAt
    cases h : p.deps.lookup id with
    | none => simp
    | some o => simp
  refine ⟨?_, ?_, ?_, ?_, ?_, ?_, ?_⟩
  · intro d
    unfold pkg.DirectDep
    cases h1 : p.m.DepsByPkgPath.lookup path with
    | none => simp
    | some id =>
      cases h2 : p.depsAt id with
      | none =>
        have h3 : ¬ p.deps.lookup id = some (some d) := fun h => by
          rw [← hd, h2] at h
          cases h
        simp [h2, h3]
      | some imp =>
        have h3 := (hd id imp).1 h2
        simp [h2, h3]
  · intro hno
    unfold pkg.DirectDep
    cases h1 : p.m.DepsByPkgPath.lookup path with
    | none => rfl
    | some id =>
      cases h2 : p.depsAt id with
      | none => simp [h2]
      | some imp => exact absurd ⟨id, imp, h1, (hd id imp).1 h2⟩ hno
  · intro d
    unfold pkg.ResolveImportPath
    cases h1 : p.m.DepsByImpPath.lookup path with
    | none => simp
    | some id =>
      by_cases hid : id = ""
      · simp [hid]
      · cases h2 : p.depsAt id with
        | none =>
          have h3 : ¬ p.deps.lookup id = some (some d) := fun h => by
            rw [← hd, h2] at h
            cases h
          simp [hid, h2, h3]
        | some imp =>
          have h3 := (hd id imp).1 h2
          simp [hid, h2, h3]
  · intro hno
    unfold pkg.ResolveImportPath
    cases h1 : p.m.DepsByImpPath.lookup path with
    | none => rfl
    | some id =>
      by_cases hid : id = ""
      · simp [hid]
      · cases h2 : p.depsAt id with
        | none => simp [hid, h2]
        | some imp => exact absurd ⟨id, imp, h1, hid, (hd id imp).1 h2⟩ hno
  · intro hb
    unfold pkg.ResolveImportPath
    simp [hb]
  · intro id h1 h2
    have h3 : p.depsAt id = none := by
      unfold pkg.depsAt
      rcases h2 with h2 | h2 <;> simp [h2]
    unfold pkg.ResolveImportPath
    by_cases hid : id = ""
    · simp [h1, hid]
    · simp [h1, hid, h3]
  · intro id h1 h2
    have h3 : p.depsAt id = none := by
      unfold pkg.depsAt
      rcases h2 with h2 | h2 <;> simp [h2]
    unfold pkg.DirectDep
    simp [h1, h3]

/-- C16: `MissingDependencies` returns a list in ascending order that is a
rearrangement of the paths of `p.types.Imports()` whose `DepsByImpPath` entry
exists and is the blank ID; so a path is returned exactly when it is such a
path, and a path with no entry or with a non-blank ID is never returned. -/
theorem MissingDependencies_sorted_exact {α : Type} (p : pkg α) :
    List.Sorted (· ≤ ·) p.MissingDependencies ∧
    List.Perm p.MissingDependencies (p.typesImports.filter (isBlank p.m.DepsByImpPath)) ∧
    (∀ path, path ∈ p.MissingDependencies ↔
      path ∈ p.typesImports ∧ p.m.DepsByImpPath.lookup path = some "") ∧
    (∀ path, p.m.DepsByImpPath.lookup path = none → path ∉ p.MissingDependencies) ∧
    (∀ path id, p.m.DepsByImpPath.lookup path = some id → id ≠ "" →
      path ∉ p.MissingDependencies) := by
  have hperm : List.Perm p.MissingDependencies
      (p.typesImports.filter (isBlank p.m.DepsByImpPath)) := by
    unfold pkg.MissingDependencies sortStrings
    rw [missingLoop_eq]
    simpa using List.perm_insertionSort (fun a b : String => a ≤ b) _
  have hmem : ∀ path, path ∈ p.MissingDependencies ↔
      path ∈ p.typesImports ∧ p.m.DepsByImpPath.lookup path = some "" := by
    intro path
    rw [hperm.mem_iff, List.mem_filter]
    simp [isBlank]
  refine ⟨?_, hperm, hmem, ?_, ?_⟩
  · unfold pkg.MissingDependencies sortStrings
    exact List.sorted_insertionSort (fun a b : String => a ≤ b) _
  · intro path hnone hin
    rw [hmem, hnone] at hin
    simp at hin
  · intro path id hid hne hin
    rw [hmem, hid] at hin
    simp at hin
    exact hne hin.2

/-- The methods on the sample package. -/
theorem samplePkg_methods :
    samplePkg.DirectDep "example.com/a" = .ok "A" ∧
    samplePkg.DirectDep "example.com/c" =
      .error "package does not import package with path example.com/c" ∧
    samplePkg.ResolveImportPath "a" = .ok "A" ∧
    samplePkg.ResolveImportPath "b" = .error "package does not import b" ∧
    samplePkg.MissingDependencies = ["alpha", "b", "zeta"] := by
  refine ⟨rfl, rfl, rfl, rfl, ?_⟩
  simp [pkg.MissingDependencies, sortStrings, missingLoop, samplePkg, List.insertionSort,
    List.orderedInsert]
  decide

end Cache
